import Mathlib

/-!
# discord-feed-bot: event classification and dispatch

A shallow embedding of `main.go`: the data types sent to the webhook, the
configuration, the events delivered by the file watcher, `getRelPath`, and the
body of the `dispatchEvents` loop (one dispatch cycle).

Go strings are byte strings.  They are embedded as Lean `String`s; the path
functions below inspect only the ASCII bytes `/` and `.`, so walking a string
character by character agrees with walking it byte by byte on UTF-8 text.
`url.QueryEscape` works on the UTF-8 bytes of each character.

Printing to standard output (`fmt.Println`, `fmt.Printf`) is not part of the
embedding.  A call of `postWebhook` is recorded in the list `posted`.
-/

set_option autoImplicit false

namespace DiscordFeedBot

/-! ## Data model (`main.go`, lines 18-45) -/

/-- The struct `DiscordField`. -/
structure DiscordField where
  name : String
  value : String
  deriving DecidableEq, Repr

/-- The struct `DiscordEmbed`. -/
structure DiscordEmbed where
  title : String
  description : String
  color : Int
  fields : List DiscordField
  deriving DecidableEq, Repr

/-- The struct `DiscordData`. -/
structure DiscordData where
  content : String
  embeds : List DiscordEmbed
  deriving DecidableEq, Repr

/-- The struct `Config`; `basePath` is the yaml key `folder`. -/
structure Config where
  polling : Int
  webhook : String
  basePath : String
  webLink : String
  deriving DecidableEq, Repr

/-- The operations of `watcher.Op`, in the order of the library's constants. -/
inductive Op where
  | Create
  | Write
  | Remove
  | Rename
  | Chmod
  | Move
  deriving DecidableEq, Repr

/-- A `watcher.Event`: the operation, `Path`, `OldPath`, and the two methods of
the embedded `os.FileInfo` that the program calls, `Name()` and `IsDir()`. -/
structure Event where
  op : Op
  path : String
  oldPath : String
  name : String
  isDir : Bool
  deriving DecidableEq, Repr

/-! ## Library functions called by the program

`path/filepath` with the Unix separator (`Clean`, `Rel`, `Base`) and
`net/url` (`QueryEscape`), transcribed from the Go standard library. -/

/-- The function `os.IsPathSeparator` on Unix. -/
def isPathSeparator (c : Char) : Bool := c == '/'

/-- The test `r == n || os.IsPathSeparator(path[r])` on the unread input. -/
def atEndOrSep : List Char → Bool
  | [] => true
  | c :: _ => isPathSeparator c

/-- The backtracking of `Clean` at a `..` element: `out.w--`, then
`for out.w > dotdot && !os.IsPathSeparator(out.index(out.w)) { out.w-- }`.
The buffer is held reversed, so its head is the byte at index `out.w - 1`. -/
def cleanBacktrack (dotdot : Nat) : List Char → List Char
  | [] => []
  | c :: rest =>
    if rest.length > dotdot && !isPathSeparator c then cleanBacktrack dotdot rest else rest

/-- The start of a real path element in `Clean`: add slash if needed
(`if rooted && out.w != 1 || !rooted && out.w != 0 { out.append(Separator) }`). -/
def cleanAddSlash (rooted : Bool) (rout : List Char) : List Char :=
  if (rooted && rout.length != 1) || (!rooted && rout.length != 0) then '/' :: rout else rout

/-- The `..` element in `Clean`: backtrack when `out.w > dotdot`; otherwise,
when the path is not rooted, append `..` (after a separator if the buffer is
not empty) and move `dotdot` to the end of the buffer.  The result is the new
`dotdot` and the new buffer. -/
def cleanDotDot (rooted : Bool) (dotdot : Nat) (rout : List Char) : Nat × List Char :=
  if rout.length > dotdot then (dotdot, cleanBacktrack dotdot rout)
  else if !rooted then
    let rout2 := '.' :: '.' :: (if rout.length > 0 then '/' :: rout else rout)
    (rout2.length, rout2)
  else (dotdot, rout)

/-- The main loop of `filepath.Clean`, one input byte per step.  `inElem` is
true while the inner loop copying a real path element is running; `rout` is
the output buffer reversed, its length is `out.w`. -/
def cleanLoop (rooted : Bool) : List Char → Bool → Nat → List Char → List Char
  | [], _, _, rout => rout
  | c :: rest, inElem, dotdot, rout =>
    if inElem then
      -- copy element: `for ; r < n && !os.IsPathSeparator(path[r]); r++`
      if isPathSeparator c then cleanLoop rooted rest false dotdot rout
      else cleanLoop rooted rest true dotdot (c :: rout)
    else if isPathSeparator c then
      -- empty path element
      cleanLoop rooted rest false dotdot rout
    else if c == '.' && atEndOrSep rest then
      -- . element
      cleanLoop rooted rest false dotdot rout
    else
      match rest with
      | [] =>
        -- real path element: add slash if needed, then copy the element
        cleanLoop rooted [] true dotdot (c :: cleanAddSlash rooted rout)
      | d :: rest2 =>
        if c == '.' && d == '.' && atEndOrSep rest2 then
          -- .. element: remove to last separator
          cleanLoop rooted rest2 false (cleanDotDot rooted dotdot rout).1
            (cleanDotDot rooted dotdot rout).2
        else
          -- real path element: add slash if needed, then copy the element
          cleanLoop rooted (d :: rest2) true dotdot (c :: cleanAddSlash rooted rout)

/-- The function `filepath.Clean` on Unix (the volume name is empty). -/
def filepathClean (path : String) : String :=
  match path.data with
  | [] => "."
  | c :: rest =>
    let rooted := isPathSeparator c
    let rout :=
      if rooted then cleanLoop true rest false 1 ['/']
      else cleanLoop false (c :: rest) false 0 []
    -- Turn empty string into "."
    if rout.length == 0 then "." else String.mk rout.reverse

/-- The path element starting at the head of the list: the bytes before the
next separator (`for bi < bl && base[bi] != Separator { bi++ }`). -/
def elemOf (p : List Char) : List Char := p.takeWhile (fun c => !isPathSeparator c)

/-- What follows the element at the head of the list and the separator after
it, if any (`if bi < bl { bi++ }`). -/
def afterElem (p : List Char) : List Char := (p.dropWhile (fun c => !isPathSeparator c)).drop 1

/-- The loop of `filepath.Rel` that positions `base[b0:bi]` and `targ[t0:ti]`
at the first differing elements.  The arguments are `base[b0:]` and
`targ[t0:]` at the head of an iteration (where `bi = b0`, `ti = t0`); the
result is `(base[b0:bi], base[b0:], targ[t0:])` when the loop is left.  The
loop goes on while base elements are left: a target that is used up has the
empty element there, so the base element that follows is a differing
element, and `Rel` sees it when that element is `..`. -/
def relLoop : Nat → List Char → List Char → List Char × List Char × List Char
  | 0, b, t => ([], b, t)
  | fuel + 1, b, t =>
    if b.isEmpty then ([], b, t)
    else if elemOf t != elemOf b then (elemOf b, b, t)
    else relLoop fuel (afterElem b) (afterElem t)

/-- The test `len(p) > 0 && p[0] == Separator`. -/
def startsWithSep : List Char → Bool
  | [] => false
  | c :: _ => c == '/'

/-- The function `filepath.IsAbs` on Unix: the path begins with a slash. -/
def filepathIsAbs (path : String) : Bool := startsWithSep path.data

/-- The text `..` followed by `seps` copies of `/..`. -/
def upDirs : Nat → List Char
  | 0 => ['.', '.']
  | n + 1 => upDirs n ++ ['/', '.', '.']

/-- The function `filepath.Rel` on Unix (volume names are empty).  `Rel`
calls `Clean` on the result. -/
def filepathRel (basepath targpath : String) : Except String String :=
  let base := filepathClean basepath
  let targ := filepathClean targpath
  if targ == base then .ok "."
  else
    let base := if base == "." then "" else base
    let baseSlashed := startsWithSep base.data
    let targSlashed := startsWithSep targ.data
    if baseSlashed != targSlashed then
      .error ("Rel: can't make " ++ targpath ++ " relative to " ++ basepath)
    else
      let (b0bi, b0bl, t0tl) := relLoop (base.data.length + 1) base.data targ.data
      if b0bi == ['.', '.'] then
        .error ("Rel: can't make " ++ targpath ++ " relative to " ++ basepath)
      else if !b0bl.isEmpty then
        -- Base elements left. Must go up before going down.
        let seps := b0bl.count '/'
        .ok (filepathClean
          (String.mk (upDirs seps ++ (if !t0tl.isEmpty then '/' :: t0tl else []))))
      else
        .ok (filepathClean (String.mk t0tl))

/-- The function `filepath.Base` on Unix. -/
def filepathBase (path : String) : String :=
  if path == "" then "."
  else
    -- Strip trailing slashes.
    let rpath := path.data.reverse.dropWhile isPathSeparator
    -- Find the last element
    let last := (rpath.takeWhile (fun c => !isPathSeparator c)).reverse
    -- If empty now, it had only slashes.
    if last.isEmpty then "/" else String.mk last

/-- The function `shouldEscape` of `net/url` in the mode
`encodeQueryComponent`, on a byte. -/
def shouldEscape (c : Nat) : Bool :=
  if (97 ≤ c && c ≤ 122) || (65 ≤ c && c ≤ 90) || (48 ≤ c && c ≤ 57) then false
  else if c == 45 || c == 95 || c == 46 || c == 126 then false
  else true

/-- The digit table `upperhex` of `net/url`. -/
def upperhex (n : Nat) : Char :=
  "0123456789ABCDEF".data.getD n '0'

/-- The output of `escape` for one byte in the mode `encodeQueryComponent`. -/
def escapeByte (c : Nat) : List Char :=
  if c == 32 then ['+']
  else if shouldEscape c then ['%', upperhex (c / 16), upperhex (c % 16)]
  else [Char.ofNat c]

/-- The function `url.QueryEscape`. -/
def queryEscape (s : String) : String :=
  String.mk ((s.data.flatMap String.utf8EncodeChar).flatMap (fun b => escapeByte b.toNat))

/-! ## `getRelPath` (`main.go`, lines 97-105) -/

/-- The function `getRelPath`; `config` is the global of that name. -/
def getRelPath (config : Config) (path : String) : String :=
  match filepathRel config.basePath path with
  | .error _ => "..."
  | .ok path => path

/-! ## One cycle of `dispatchEvents` (`main.go`, lines 107-180) -/

/-- The three embeds that a cycle fills: the locals `newFilesEmbed`,
`deletedFilesEmbed` and `changeFileSet`. -/
structure Embeds where
  newFilesEmbed : DiscordEmbed
  deletedFilesEmbed : DiscordEmbed
  changeFileSet : DiscordEmbed
  deriving DecidableEq, Repr

/-- The embeds as they are created at the head of a cycle (lines 110-123). -/
def initEmbeds : Embeds :=
  { newFilesEmbed := { title := "New files", description := "", color := 2667354, fields := [] }
    deletedFilesEmbed :=
      { title := "Deleted files", description := "", color := 14701138, fields := [] }
    changeFileSet := { title := "Changes", description := "", color := 8750469, fields := [] } }

/-- The call `append(embed.Fields, field)` stored back into the embed. -/
def appendField (embed : DiscordEmbed) (field : DiscordField) : DiscordEmbed :=
  { embed with fields := embed.fields ++ [field] }

/-- The value built for a `Create` event (lines 138-142). -/
def createValue (config : Config) (event : Event) : String :=
  let value := "`" ++ getRelPath config event.path ++ "`\n"
  if config.webLink != "" then
    value ++ ("[web link](" ++ config.webLink ++ queryEscape event.path ++ ")")
  else value

/-- The body of the loop `for _, event := range events` (lines 126-158). -/
def processEvent (config : Config) (s : Embeds) (event : Event) : Embeds :=
  if event.isDir then s
  else
    match event.op with
    | Op.Remove =>
      { s with
        deletedFilesEmbed :=
          appendField s.deletedFilesEmbed
            (DiscordField.mk event.name ("`" ++ getRelPath config event.path ++ "`")) }
    | Op.Create =>
      { s with
        newFilesEmbed :=
          appendField s.newFilesEmbed (DiscordField.mk event.name (createValue config event)) }
    | Op.Move =>
      { s with
        changeFileSet :=
          appendField s.changeFileSet
            (DiscordField.mk event.name
              ("Move from `" ++ getRelPath config event.oldPath ++ "` to `" ++
                getRelPath config event.path ++ "`")) }
    | Op.Rename =>
      { s with
        changeFileSet :=
          appendField s.changeFileSet
            (DiscordField.mk event.name ("Rename to `" ++ filepathBase event.path)) }
    | _ => s

/-- The loop over the buffered events (lines 125-159). -/
def classify (config : Config) (events : List Event) : Embeds :=
  events.foldl (processEvent config) initEmbeds

/-- The assembly of the message from the three embeds (lines 161-172). -/
def buildMsg (s : Embeds) : DiscordData :=
  let msg : DiscordData := { content := "", embeds := [] }
  let msg :=
    if s.newFilesEmbed.fields.length > 0 then { msg with embeds := msg.embeds ++ [s.newFilesEmbed] }
    else msg
  let msg :=
    if s.deletedFilesEmbed.fields.length > 0 then
      { msg with embeds := msg.embeds ++ [s.deletedFilesEmbed] }
    else msg
  let msg :=
    if s.changeFileSet.fields.length > 0 then { msg with embeds := msg.embeds ++ [s.changeFileSet] }
    else msg
  msg

/-- The state a cycle reads and writes: the global buffer `events` and the
calls of `postWebhook` made so far, oldest first. -/
structure World where
  events : List Event
  posted : List DiscordData
  deriving DecidableEq, Repr

/-- One iteration of the loop of `dispatchEvents`, up to the sleep
(lines 109-176). -/
def dispatchCycle (config : Config) (w : World) : World :=
  if w.events.length > 0 then
    let msg := buildMsg (classify config w.events)
    { events := w.events.take 0, posted := w.posted ++ [msg] }
  else w

/-- The append of `pollEvents` (line 51). -/
def pollEvent (w : World) (event : Event) : World :=
  { w with events := w.events ++ [event] }

/-- Whether an event reaches one of the four cases of the switch: it is not a
directory event and its operation is `Create`, `Remove`, `Move` or `Rename`. -/
def qualifies (event : Event) : Bool :=
  !event.isDir &&
    (event.op == Op.Create || event.op == Op.Remove || event.op == Op.Move ||
      event.op == Op.Rename)

/-! ## Predicates used in the statements -/

/-- The head of the unread input is a `..` element. -/
def atDotDot : List Char → Bool
  | '.' :: '.' :: rest2 => atEndOrSep rest2
  | _ => false

/-- The head of the unread input is a `.` element. -/
def atDot : List Char → Bool
  | '.' :: rest => atEndOrSep rest
  | _ => false

/-- The invariant of the loop of `Clean` on the first byte written: it is a
slash exactly when the path is rooted, and then `dotdot` protects it. -/
def CleanInv (rooted : Bool) (dotdot : Nat) (rout : List Char) : Prop :=
  (rout.getLast? = some '/' ↔ rooted = true) ∧ (rooted = true → 1 ≤ dotdot)

/-- The path elements of a text, split at the separators: the element at the
head, then the others in order. -/
def pathElems : List Char → List Char × List (List Char)
  | [] => ([], [])
  | c :: l =>
    if isPathSeparator c then ([], (pathElems l).1 :: (pathElems l).2)
    else (c :: (pathElems l).1, (pathElems l).2)

/-- No path element of the text is `..`. -/
def NoDotDot (l : List Char) : Prop :=
  (pathElems l).1 ≠ ['.', '.'] ∧ ∀ s ∈ (pathElems l).2, s ≠ ['.', '.']

/-- The invariant of the loop of `Clean` on a rooted path: the buffer starts
with the slash, `dotdot` is 1, no finished element of the buffer is `..`, and
the element being copied, once the rest of it is read, is not `..`. -/
def RootedInv (p : List Char) (inElem : Bool) (dotdot : Nat) (rout : List Char) : Prop :=
  rout.getLast? = some '/' ∧ dotdot = 1 ∧ (∀ s ∈ (pathElems rout).2, s ≠ ['.', '.']) ∧
    (if inElem then (pathElems rout).1.reverse ++ elemOf p ≠ ['.', '.']
    else (pathElems rout).1 ≠ ['.', '.'])

/-- The text has `..` as a whole path element from some boundary on. -/
def HasDotDotAt (base : List Char) : Prop :=
  ∃ a b, base = a ++ '.' :: '.' :: b ∧ (a = [] ∨ a.getLast? = some '/') ∧
    atEndOrSep b = true

/-- The text `b` is the rest of `base` from the start of a path element on,
or it is empty. -/
def Boundary (base b : List Char) : Prop :=
  ∃ a, base = a ++ b ∧ (a = [] ∨ a.getLast? = some '/' ∨ b = [])

/-- The cleaned path lies under the cleaned base: it is the cleaned base, or
it continues the cleaned base from a separator on. -/
def liesUnder (basepath path : String) : Bool :=
  (filepathClean basepath).data.isPrefixOf (filepathClean path).data &&
    (atEndOrSep ((filepathClean path).data.drop (filepathClean basepath).data.length) ||
      (filepathClean basepath).data.getLast? == some '/')

/-- No two separators stand side by side in the text. -/
def NoSlashPair (l : List Char) : Prop := ∀ a b, l ≠ a ++ '/' :: '/' :: b

/-- The invariant of the loop of `Clean` on a rooted path that keeps empty
elements out: the buffer starts with the slash, `dotdot` is 1, no two
separators stand side by side, and only the lone slash ends in a separator. -/
def TidyInv (dotdot : Nat) (rout : List Char) : Prop :=
  rout.getLast? = some '/' ∧ dotdot = 1 ∧ NoSlashPair rout ∧
    (rout.head? = some '/' → rout = ['/'])

/-- The invariant of the loop of `Clean` on a relative path that begins with
a `..` element: the buffer begins with `..`, what follows begins with a
separator, `dotdot` protects the `..`, and an element being copied is not
the first. -/
def DotDotInv (inElem : Bool) (dotdot : Nat) (rout : List Char) : Prop :=
  ∃ r', rout = r' ++ ['.', '.'] ∧ (r' = [] ∨ r'.getLast? = some '/') ∧
    (inElem = true → r' ≠ []) ∧ 2 ≤ dotdot


/-! ## The path functions -/

theorem cleanLoop_nil (rooted inElem : Bool) (dotdot : Nat) (rout : List Char) :
    cleanLoop rooted [] inElem dotdot rout = rout := by
  rw [cleanLoop]

theorem cleanLoop_copy (rooted : Bool) (c : Char) (rest : List Char) (dotdot : Nat)
    (rout : List Char) :
    cleanLoop rooted (c :: rest) true dotdot rout =
      if isPathSeparator c then cleanLoop rooted rest false dotdot rout
      else cleanLoop rooted rest true dotdot (c :: rout) := by
  rw [cleanLoop.eq_def]
  simp only [if_true]

theorem cleanLoop_sep (rooted : Bool) (c : Char) (rest : List Char) (dotdot : Nat)
    (rout : List Char) (hc : isPathSeparator c = true) :
    cleanLoop rooted (c :: rest) false dotdot rout = cleanLoop rooted rest false dotdot rout := by
  rw [cleanLoop.eq_def]
  simp only [Bool.false_eq_true, if_false, hc, if_true]

theorem cleanLoop_dot (rooted : Bool) (rest : List Char) (dotdot : Nat)
    (rout : List Char) (hr : atEndOrSep rest = true) :
    cleanLoop rooted ('.' :: rest) false dotdot rout = cleanLoop rooted rest false dotdot rout := by
  rw [cleanLoop.eq_def]
  have hs : isPathSeparator '.' = false := by decide
  simp only [Bool.false_eq_true, if_false, hs, hr, beq_self_eq_true, Bool.and_self, if_true]

theorem cleanLoop_dotdot (rooted : Bool) (rest2 : List Char) (dotdot : Nat)
    (rout : List Char) (hr : atEndOrSep rest2 = true) :
    cleanLoop rooted ('.' :: '.' :: rest2) false dotdot rout =
      cleanLoop rooted rest2 false (cleanDotDot rooted dotdot rout).1
        (cleanDotDot rooted dotdot rout).2 := by
  rw [cleanLoop.eq_def]
  have hs : isPathSeparator '.' = false := by decide
  have ha : atEndOrSep ('.' :: rest2) = false := rfl
  simp only [Bool.false_eq_true, if_false, hs, ha, hr, beq_self_eq_true, Bool.and_self,
    Bool.and_false, if_true]

theorem cleanLoop_elem (rooted : Bool) (c : Char) (rest : List Char) (dotdot : Nat)
    (rout : List Char) (hc : isPathSeparator c = false) (h1 : atDot (c :: rest) = false)
    (h2 : atDotDot (c :: rest) = false) :
    cleanLoop rooted (c :: rest) false dotdot rout =
      cleanLoop rooted rest true dotdot (c :: cleanAddSlash rooted rout) := by
  rw [cleanLoop.eq_def]
  have h1' : (c == '.' && atEndOrSep rest) = false := by
    by_cases hcd : c = '.'
    · subst hcd
      simpa [atDot] using h1
    · simp [hcd]
  simp only [Bool.false_eq_true, if_false, hc, h1']
  cases rest with
  | nil => rfl
  | cons d rest2 =>
    have h2' : (c == '.' && d == '.' && atEndOrSep rest2) = false := by
      by_cases hcd : c = '.'
      · by_cases hdd : d = '.'
        · subst hcd hdd
          simpa [atDotDot] using h2
        · simp [hdd]
      · simp [hcd]
    simp only [h2', Bool.false_eq_true, if_false]

theorem atDot_eq {c : Char} {rest : List Char} (h : atDot (c :: rest) = true) :
    c = '.' ∧ atEndOrSep rest = true := by
  by_cases hc : c = '.'
  · subst hc
    exact ⟨rfl, by simpa [atDot] using h⟩
  · exfalso
    unfold atDot at h
    split at h
    · rename_i heq
      exact hc (List.cons.inj heq).1
    · cases h

theorem atDotDot_eq {p : List Char} (h : atDotDot p = true) :
    ∃ rest2, p = '.' :: '.' :: rest2 ∧ atEndOrSep rest2 = true := by
  unfold atDotDot at h
  split at h
  · rename_i rest2
    exact ⟨rest2, rfl, h⟩
  · cases h

/-- Induction along the loop of `Clean`: a property of the unread input, the
mode, `dotdot` and the buffer that every step keeps holds when the input is
used up. -/
theorem cleanLoop_induction (rooted : Bool) (P : List Char → Bool → Nat → List Char → Prop)
    (hcopySep : ∀ c rest d r, P (c :: rest) true d r → isPathSeparator c = true →
      P rest false d r)
    (hcopy : ∀ c rest d r, P (c :: rest) true d r → isPathSeparator c = false →
      P rest true d (c :: r))
    (hsep : ∀ c rest d r, P (c :: rest) false d r → isPathSeparator c = true →
      P rest false d r)
    (hdot : ∀ rest d r, P ('.' :: rest) false d r → atEndOrSep rest = true → P rest false d r)
    (hdd : ∀ rest2 d r, P ('.' :: '.' :: rest2) false d r → atEndOrSep rest2 = true →
      P rest2 false (cleanDotDot rooted d r).1 (cleanDotDot rooted d r).2)
    (helem : ∀ c rest d r, P (c :: rest) false d r → isPathSeparator c = false →
      atDot (c :: rest) = false → atDotDot (c :: rest) = false →
      P rest true d (c :: cleanAddSlash rooted r)) (n : Nat) :
    ∀ (p : List Char), p.length ≤ n → ∀ (inElem : Bool) (d : Nat) (r : List Char),
      P p inElem d r → ∃ b d', P [] b d' (cleanLoop rooted p inElem d r) := by
  induction n with
  | zero =>
    intro p hp inElem d r h
    have : p = [] := List.length_eq_zero.mp (by omega)
    subst this
    exact ⟨inElem, d, by rw [cleanLoop_nil]; exact h⟩
  | succ n ih =>
    intro p hp inElem d r h
    cases p with
    | nil => exact ⟨inElem, d, by rw [cleanLoop_nil]; exact h⟩
    | cons c rest =>
      have hrest : rest.length ≤ n := by simp only [List.length_cons] at hp; omega
      cases inElem with
      | true =>
        rw [cleanLoop_copy]
        split_ifs with hc
        · exact ih rest hrest _ _ _ (hcopySep c rest d r h hc)
        · exact ih rest hrest _ _ _ (hcopy c rest d r h (by simpa using hc))
      | false =>
        by_cases hc : isPathSeparator c = true
        · rw [cleanLoop_sep rooted c rest d r hc]
          exact ih rest hrest _ _ _ (hsep c rest d r h hc)
        · have hc' : isPathSeparator c = false := by simpa using hc
          by_cases h1 : atDot (c :: rest) = true
          · obtain ⟨rfl, hr⟩ := atDot_eq h1
            rw [cleanLoop_dot rooted rest d r hr]
            exact ih rest hrest _ _ _ (hdot rest d r h hr)
          · by_cases h2 : atDotDot (c :: rest) = true
            · obtain ⟨rest2, heq, hr⟩ := atDotDot_eq h2
              have hrest2 : rest2.length ≤ n := by
                have := congrArg List.length heq
                simp only [List.length_cons] at this
                omega
              rw [heq] at h ⊢
              rw [cleanLoop_dotdot rooted rest2 d r hr]
              exact ih rest2 hrest2 _ _ _ (hdd rest2 d r h hr)
            · rw [cleanLoop_elem rooted c rest d r hc' (by simpa using h1) (by simpa using h2)]
              exact ih rest hrest _ _ _
                (helem c rest d r h hc' (by simpa using h1) (by simpa using h2))

/-- A property of `dotdot` and the buffer that every step of the loop of
`Clean` keeps holds of the buffer the loop returns. -/
theorem cleanLoop_preserves (rooted : Bool) (P : Nat → List Char → Prop)
    (hpush : ∀ d r c, P d r → isPathSeparator c = false → P d (c :: r))
    (hslash : ∀ d r, P d r → P d (cleanAddSlash rooted r))
    (hdd : ∀ d r, P d r → P (cleanDotDot rooted d r).1 (cleanDotDot rooted d r).2)
    (p : List Char) (inElem : Bool) (d : Nat) (r : List Char) (h : P d r) :
    ∃ d', P d' (cleanLoop rooted p inElem d r) := by
  obtain ⟨-, d', hd'⟩ := cleanLoop_induction rooted (fun _ _ d r => P d r)
    (fun _ _ _ _ h _ => h) (fun c _ d r h hc => hpush d r c h hc) (fun _ _ _ _ h _ => h)
    (fun _ _ _ h _ => h) (fun _ d r h _ => hdd d r h)
    (fun c _ d r h hc _ _ => hpush d _ c (hslash d r h) hc) p.length p le_rfl inElem d r h
  exact ⟨d', hd'⟩

theorem cleanBacktrack_suffix (dotdot : Nat) (rout : List Char) (h : dotdot < rout.length) :
    cleanBacktrack dotdot rout <:+ rout ∧ dotdot ≤ (cleanBacktrack dotdot rout).length := by
  induction rout with
  | nil => simp at h
  | cons c rest ih =>
    unfold cleanBacktrack
    split_ifs with hc
    · simp only [Bool.and_eq_true, decide_eq_true_eq] at hc
      obtain ⟨hs, hl⟩ := ih hc.1
      exact ⟨hs.trans (List.suffix_cons c rest), hl⟩
    · simp only [List.length_cons] at h
      exact ⟨List.suffix_cons c rest, by omega⟩

theorem getLast?_of_suffix {l₁ l₂ : List Char} (h : l₁ <:+ l₂) (hne : l₁ ≠ []) :
    l₁.getLast? = l₂.getLast? := by
  obtain ⟨t, rfl⟩ := h
  exact (List.getLast?_append_of_ne_nil t hne).symm

theorem cleanInv_nil {rooted : Bool} {dotdot : Nat} (h : CleanInv rooted dotdot []) :
    rooted = false := by
  have := h.1
  cases rooted
  · rfl
  · simp at this

theorem cleanInv_cons {rooted : Bool} {dotdot : Nat} {rout : List Char} (c : Char)
    (h : CleanInv rooted dotdot rout) (hne : rout ≠ []) : CleanInv rooted dotdot (c :: rout) := by
  refine ⟨?_, h.2⟩
  cases rout with
  | nil => exact absurd rfl hne
  | cons a l =>
    rw [List.getLast?_cons_cons]
    exact h.1

theorem cleanInv_push (rooted : Bool) (dotdot : Nat) (rout : List Char) (c : Char)
    (h : CleanInv rooted dotdot rout) (hc : isPathSeparator c = false) :
    CleanInv rooted dotdot (c :: rout) := by
  by_cases hne : rout = []
  · subst hne
    have hr := cleanInv_nil h
    subst hr
    refine ⟨⟨fun h0 => ?_, fun h0 => by cases h0⟩, h.2⟩
    have hcs : c = '/' := Option.some.inj h0
    subst hcs
    exact absurd hc (by decide)
  · exact cleanInv_cons c h hne

theorem cleanInv_slash (rooted : Bool) (dotdot : Nat) (rout : List Char)
    (h : CleanInv rooted dotdot rout) : CleanInv rooted dotdot (cleanAddSlash rooted rout) := by
  unfold cleanAddSlash
  split_ifs with hc
  · by_cases hne : rout = []
    · subst hne
      have hr := cleanInv_nil h
      subst hr
      simp at hc
    · exact cleanInv_cons '/' h hne
  · exact h

theorem cleanInv_dotDot (rooted : Bool) (dotdot : Nat) (rout : List Char)
    (h : CleanInv rooted dotdot rout) :
    CleanInv rooted (cleanDotDot rooted dotdot rout).1 (cleanDotDot rooted dotdot rout).2 := by
  by_cases hlt : rout.length > dotdot
  · simp only [cleanDotDot, hlt, if_true]
    obtain ⟨hs, hl⟩ := cleanBacktrack_suffix dotdot rout hlt
    refine ⟨?_, h.2⟩
    by_cases hne : cleanBacktrack dotdot rout = []
    · rw [hne] at hl ⊢
      constructor
      · intro h0
        cases h0
      · intro hr
        have := h.2 hr
        simp only [List.length_nil] at hl
        omega
    · rw [getLast?_of_suffix hs hne]
      exact h.1
  · cases rooted with
    | true =>
      simp only [cleanDotDot, hlt, if_false, Bool.not_true, Bool.false_eq_true]
      exact h
    | false =>
      simp only [cleanDotDot, hlt, if_false, Bool.not_false, if_true]
      constructor
      · by_cases hne : rout = []
        · subst hne
          constructor
          · intro h0
            exact absurd h0 (by decide)
          · intro h0
            cases h0
        · have hpos : rout.length > 0 := List.length_pos.mpr hne
          simp only [hpos, if_true]
          exact (cleanInv_cons '.' (cleanInv_cons '.' (cleanInv_cons '/' h hne) (by simp))
            (by simp)).1
      · intro h0
        cases h0

/-- The function `Clean` keeps a path absolute or relative as it was. -/
theorem filepathIsAbs_clean (path : String) :
    filepathIsAbs (filepathClean path) = filepathIsAbs path := by
  unfold filepathClean filepathIsAbs
  cases hp : path.data with
  | nil => rfl
  | cons c rest =>
    simp only
    have key : ∀ (rooted : Bool) (p : List Char) (d : Nat) (r : List Char),
        CleanInv rooted d r →
        startsWithSep
          (if (cleanLoop rooted p false d r).length == 0 then "."
          else String.mk (cleanLoop rooted p false d r).reverse).data = rooted := by
      intro rooted p d r hinv
      obtain ⟨d', hd'⟩ := cleanLoop_preserves rooted (CleanInv rooted) (cleanInv_push rooted)
        (cleanInv_slash rooted) (cleanInv_dotDot rooted) p false d r hinv
      generalize cleanLoop rooted p false d r = out at hd'
      cases hout : out.reverse with
      | nil =>
        have : out = [] := by simpa using hout
        subst this
        rw [cleanInv_nil hd']
        rfl
      | cons a l =>
        have hne : out ≠ [] := by
          intro h0
          subst h0
          cases hout
        have hlen : (out.length == 0) = false := by
          simpa using hne
        simp only [hlen, Bool.false_eq_true, if_false, hout, startsWithSep]
        have hlast : out.getLast? = some a := by
          rw [← List.head?_reverse, hout]
          rfl
        have h1 := hd'.1
        rw [hlast] at h1
        cases rooted
        · by_cases ha : a = '/'
          · subst ha
            exact absurd (h1.mp rfl) (by decide)
          · simpa using ha
        · have := Option.some.inj (h1.mpr rfl)
          subst this
          rfl
    by_cases hc : isPathSeparator c = true
    · simp only [hc, if_true]
      rw [key true rest 1 ['/'] ⟨⟨fun _ => rfl, fun _ => rfl⟩, fun _ => le_rfl⟩]
      simpa [isPathSeparator, startsWithSep] using hc
    · have hc' : isPathSeparator c = false := by simpa using hc
      simp only [hc', Bool.false_eq_true, if_false]
      rw [key false (c :: rest) 0 [] ⟨⟨fun h0 => (nomatch h0), fun h0 => (nomatch h0)⟩,
        fun h0 => (nomatch h0)⟩]
      simpa [isPathSeparator, startsWithSep] using hc

theorem afterElem_length_lt (p : List Char) (h : p ≠ []) : (afterElem p).length < p.length := by
  unfold afterElem
  cases p with
  | nil => exact absurd rfl h
  | cons c rest =>
    by_cases hc : isPathSeparator c = true
    · simp [List.dropWhile_cons, hc]
    · have hle := (List.dropWhile_suffix (fun c => !isPathSeparator c) (l := rest)).length_le
      simp only [List.dropWhile_cons, hc, Bool.not_false, if_true, List.length_drop,
        List.length_cons, Bool.not_eq_true', Bool.not_true]
      omega

/-- The loop of `Rel` does not run out of fuel: with any fuel above the
length of the base it returns what it returns with more. -/
theorem relLoop_fuel (fuel₁ : Nat) :
    ∀ (fuel₂ : Nat) (b t : List Char), b.length < fuel₁ → b.length < fuel₂ →
      relLoop fuel₁ b t = relLoop fuel₂ b t := by
  induction fuel₁ with
  | zero => intro fuel₂ b t h1; omega
  | succ n ih =>
    intro fuel₂ b t h1 h2
    cases fuel₂ with
    | zero => omega
    | succ m =>
      unfold relLoop
      split_ifs with hb he
      · rfl
      · rfl
      · have hne : b ≠ [] := by
          intro h0
          subst h0
          simp at hb
        have hlt := afterElem_length_lt b hne
        exact ih m (afterElem b) (afterElem t) (by omega) (by omega)

/-- The loop of `Rel` without the fuel: with the fuel that `filepathRel`
gives, the result satisfies the equation of the loop. -/
theorem relLoop_unfold (b t : List Char) :
    relLoop (b.length + 1) b t =
      if b.isEmpty then ([], b, t)
      else if elemOf t != elemOf b then (elemOf b, b, t)
      else relLoop ((afterElem b).length + 1) (afterElem b) (afterElem t) := by
  rw [relLoop]
  split_ifs with hb he
  · rfl
  · rfl
  · have hne : b ≠ [] := by
      intro h0
      subst h0
      simp at hb
    have hlt := afterElem_length_lt b hne
    exact relLoop_fuel _ _ _ _ hlt (Nat.lt_succ_self _)

theorem filepathRel_error_of_isAbs_ne (basepath targpath : String)
    (h : filepathIsAbs basepath ≠ filepathIsAbs targpath) :
    filepathRel basepath targpath =
      .error ("Rel: can't make " ++ targpath ++ " relative to " ++ basepath) := by
  have hb := filepathIsAbs_clean basepath
  have ht := filepathIsAbs_clean targpath
  unfold filepathIsAbs at hb ht h
  have hne : (filepathClean targpath == filepathClean basepath) = false := by
    rw [beq_eq_false_iff_ne]
    intro heq
    rw [heq] at ht
    exact h (hb.symm.trans ht)
  have hbase : startsWithSep
      (if filepathClean basepath == "." then "" else filepathClean basepath).data =
      startsWithSep basepath.data := by
    split_ifs with hdot
    · have : filepathClean basepath = "." := by simpa using hdot
      rw [this] at hb
      rw [← hb]
      rfl
    · exact hb
  have hmix : (startsWithSep
      (if filepathClean basepath == "." then "" else filepathClean basepath).data !=
      startsWithSep (filepathClean targpath).data) = true := by
    rw [hbase, ht]
    simpa using h
  simp only [filepathRel, hne, Bool.false_eq_true, if_false, hmix, if_true]

/-- The model of `Rel` on rows of the table of the standard library's own
test and on the two cases where a base element `..` meets a used-up target
and where the target cleans to `.`. -/
theorem filepathRel_rows :
    filepathRel "a/b" "a/b/c/d" = .ok "c/d" ∧
      filepathRel "a/b/c/d" "a/b" = .ok "../.." ∧
      filepathRel "/a/b/c" "/a/c/d" = .ok "../../c/d" ∧
      filepathRel "../../a/b" "../../a/b/c/d" = .ok "c/d" ∧
      filepathRel "." ".." = .ok ".." ∧
      filepathRel ".." "a" = .error "Rel: can't make a relative to .." ∧
      filepathRel "../.." ".." = .error "Rel: can't make .. relative to ../.." ∧
      filepathRel "/a" "a" = .error "Rel: can't make a relative to /a" ∧
      filepathRel "a" "" = .ok ".." :=
  ⟨rfl, rfl, rfl, rfl, rfl, rfl, rfl, rfl, rfl⟩

/-! ## `Rel` on two absolute paths -/

theorem pathElems_cons_sep (c : Char) (l : List Char) (hc : isPathSeparator c = true) :
    pathElems (c :: l) = ([], (pathElems l).1 :: (pathElems l).2) := by
  rw [pathElems]
  simp only [hc, if_true]

theorem pathElems_cons_elem (c : Char) (l : List Char) (hc : isPathSeparator c = false) :
    pathElems (c :: l) = (c :: (pathElems l).1, (pathElems l).2) := by
  rw [pathElems]
  simp only [hc, Bool.false_eq_true, if_false]

theorem elemOf_cons_sep (c : Char) (l : List Char) (hc : isPathSeparator c = true) :
    elemOf (c :: l) = [] := by
  simp [elemOf, List.takeWhile_cons, hc]

theorem elemOf_cons_elem (c : Char) (l : List Char) (hc : isPathSeparator c = false) :
    elemOf (c :: l) = c :: elemOf l := by
  simp [elemOf, List.takeWhile_cons, hc]

theorem atDotDot_of_elemOf {p : List Char} (h : elemOf p = ['.', '.']) : atDotDot p = true := by
  cases p with
  | nil => simp [elemOf] at h
  | cons c rest =>
    by_cases hc : isPathSeparator c = true
    · rw [elemOf_cons_sep c rest hc] at h
      cases h
    · rw [elemOf_cons_elem c rest (by simpa using hc)] at h
      have hc1 : c = '.' := (List.cons.inj h).1
      have h1 : elemOf rest = ['.'] := (List.cons.inj h).2
      subst hc1
      cases rest with
      | nil => simp [elemOf] at h1
      | cons d rest2 =>
        by_cases hd : isPathSeparator d = true
        · rw [elemOf_cons_sep d rest2 hd] at h1
          cases h1
        · rw [elemOf_cons_elem d rest2 (by simpa using hd)] at h1
          have hd1 : d = '.' := (List.cons.inj h1).1
          have h2 : elemOf rest2 = [] := (List.cons.inj h1).2
          subst hd1
          cases rest2 with
          | nil => rfl
          | cons e rest3 =>
            by_cases he : isPathSeparator e = true
            · simpa [atDotDot, atEndOrSep] using he
            · rw [elemOf_cons_elem e rest3 (by simpa using he)] at h2
              cases h2

/-- What `Clean` leaves in the buffer when it backtracks on a rooted path:
the lone slash, or a buffer whose elements are finished elements of the
buffer before. -/
theorem cleanBacktrack_elems (rout : List Char) (hlast : rout.getLast? = some '/')
    (hlen : 1 < rout.length) :
    cleanBacktrack 1 rout = ['/'] ∨
      ((pathElems (cleanBacktrack 1 rout)).1 ∈ (pathElems rout).2 ∧
        ∀ s ∈ (pathElems (cleanBacktrack 1 rout)).2, s ∈ (pathElems rout).2) := by
  induction rout with
  | nil => simp at hlen
  | cons c rest ih =>
    have hne : rest ≠ [] := by
      intro h0
      subst h0
      simp at hlen
    have hlast' : rest.getLast? = some '/' := by
      cases rest with
      | nil => exact absurd rfl hne
      | cons a l => rwa [List.getLast?_cons_cons] at hlast
    rw [cleanBacktrack]
    by_cases hc : isPathSeparator c = true
    · simp only [hc, Bool.not_true, Bool.and_false, Bool.false_eq_true, if_false]
      rw [pathElems_cons_sep c rest hc]
      exact Or.inr ⟨List.mem_cons_self _ _, fun s hs => List.mem_cons_of_mem _ hs⟩
    · have hc' : isPathSeparator c = false := by simpa using hc
      by_cases hl : rest.length > 1
      · simp only [hl, hc', decide_True, Bool.not_false, Bool.and_self, if_true]
        rw [pathElems_cons_elem c rest hc']
        exact ih hlast' hl
      · simp only [hl, decide_False, Bool.false_and, Bool.false_eq_true, if_false]
        left
        cases rest with
        | nil => exact absurd rfl hne
        | cons a l =>
          have : l = [] := List.length_eq_zero.mp (by simp only [List.length_cons] at hl; omega)
          subst this
          have := Option.some.inj hlast'
          subst this
          rfl

theorem getLast?_cons_of_ne_nil (c : Char) {l : List Char} (h : l ≠ []) :
    (c :: l).getLast? = l.getLast? := by
  cases l with
  | nil => exact absurd rfl h
  | cons a l => rw [List.getLast?_cons_cons]

theorem ne_nil_of_getLast? {l : List Char} {c : Char} (h : l.getLast? = some c) : l ≠ [] := by
  intro h0
  subst h0
  cases h

theorem reverse_eq_dotdot {l : List Char} (h : l = ['.', '.']) : l.reverse = ['.', '.'] := by
  subst h
  rfl

theorem cleanDotDot_rooted (rout : List Char) :
    cleanDotDot true 1 rout = (1, if rout.length > 1 then cleanBacktrack 1 rout else rout) := by
  unfold cleanDotDot
  by_cases h : rout.length > 1
  · simp only [h, if_true]
  · simp only [h, if_false, Bool.not_true, Bool.false_eq_true]

theorem cleanAddSlash_elems (c : Char) (rout : List Char) (hc : isPathSeparator c = false)
    (hlast : rout.getLast? = some '/') :
    (pathElems (c :: cleanAddSlash true rout)).1 = [c] ∧
      ∀ s ∈ (pathElems (c :: cleanAddSlash true rout)).2,
        s = [] ∨ s = (pathElems rout).1 ∨ s ∈ (pathElems rout).2 := by
  rw [pathElems_cons_elem c _ hc]
  unfold cleanAddSlash
  by_cases hl : rout.length = 1
  · have hrout : rout = ['/'] := by
      cases rout with
      | nil => cases hlast
      | cons a l =>
        have : l = [] := List.length_eq_zero.mp (by simp only [List.length_cons] at hl; omega)
        subst this
        have := Option.some.inj hlast
        subst this
        rfl
    subst hrout
    refine ⟨rfl, fun s hs => Or.inl ?_⟩
    have : s ∈ [([] : List Char)] := hs
    simpa using this
  · have hcond : ((true && rout.length != 1) || (!true && rout.length != 0)) = true := by
      simp [hl]
    simp only [hcond, if_true]
    rw [pathElems_cons_sep '/' rout rfl]
    refine ⟨rfl, fun s hs => Or.inr ?_⟩
    simpa using hs

/-- On a rooted path the loop of `Clean` returns a buffer that starts with
the slash and has no `..` element. -/
theorem cleanLoop_rooted_noDotDot (p : List Char) :
    (cleanLoop true p false 1 ['/']).getLast? = some '/' ∧
      NoDotDot (cleanLoop true p false 1 ['/']) := by
  have hstart : RootedInv p false 1 ['/'] := by
    refine ⟨rfl, rfl, ?_, ?_⟩
    · intro s hs
      have : s ∈ [([] : List Char)] := hs
      have : s = [] := by simpa using this
      subst this
      decide
    · show ([] : List Char) ≠ ['.', '.']
      decide
  obtain ⟨b, d', hlast, -, htail, hhead⟩ := cleanLoop_induction true RootedInv
    (by
      rintro c rest d r ⟨h1, h2, h3, h4⟩ hc
      refine ⟨h1, h2, h3, ?_⟩
      simp only [if_true, elemOf_cons_sep c rest hc, List.append_nil] at h4
      simp only [Bool.false_eq_true, if_false]
      intro h0
      exact h4 (reverse_eq_dotdot h0))
    (by
      rintro c rest d r ⟨h1, h2, h3, h4⟩ hc
      refine ⟨(getLast?_cons_of_ne_nil c (ne_nil_of_getLast? h1)).trans h1, h2, ?_, ?_⟩
      · rw [pathElems_cons_elem c r hc]
        exact h3
      · rw [pathElems_cons_elem c r hc]
        simp only [if_true, elemOf_cons_elem c rest hc] at h4 ⊢
        simpa using h4)
    (by
      rintro c rest d r ⟨h1, h2, h3, h4⟩ _
      exact ⟨h1, h2, h3, h4⟩)
    (by
      rintro rest d r ⟨h1, h2, h3, h4⟩ _
      exact ⟨h1, h2, h3, h4⟩)
    (by
      rintro rest2 d r ⟨h1, h2, h3, h4⟩ _
      subst h2
      rw [cleanDotDot_rooted]
      simp only [Bool.false_eq_true, if_false] at h4 ⊢
      by_cases hl : r.length > 1
      · simp only [hl, if_true]
        obtain ⟨hs, hle⟩ := cleanBacktrack_suffix 1 r hl
        have hne : cleanBacktrack 1 r ≠ [] := by
          intro h0
          rw [h0] at hle
          simp at hle
        refine ⟨(getLast?_of_suffix hs hne).trans h1, rfl, ?_, ?_⟩
        · rcases cleanBacktrack_elems r h1 hl with hb | ⟨-, hb⟩
          · rw [hb]
            intro s hs
            have : s ∈ [([] : List Char)] := hs
            have : s = [] := by simpa using this
            subst this
            decide
          · exact fun s hs => h3 s (hb s hs)
        · rcases cleanBacktrack_elems r h1 hl with hb | ⟨hb, -⟩
          · rw [hb]
            show ([] : List Char) ≠ ['.', '.']
            decide
          · exact h3 _ hb
      · simp only [hl, if_false]
        exact ⟨h1, rfl, h3, h4⟩)
    (by
      rintro c rest d r ⟨h1, h2, h3, h4⟩ hc _ hdd
      simp only [Bool.false_eq_true, if_false] at h4
      obtain ⟨hh, ht⟩ := cleanAddSlash_elems c r hc h1
      refine ⟨?_, h2, ?_, ?_⟩
      · have hne : cleanAddSlash true r ≠ [] := by
          unfold cleanAddSlash
          split_ifs
          · simp
          · exact ne_nil_of_getLast? h1
        rw [getLast?_cons_of_ne_nil c hne]
        unfold cleanAddSlash
        split_ifs
        · exact (getLast?_cons_of_ne_nil '/' (ne_nil_of_getLast? h1)).trans h1
        · exact h1
      · intro s hs
        rcases ht s hs with h0 | h0 | h0
        · subst h0
          decide
        · subst h0
          exact h4
        · exact h3 s h0
      · simp only [if_true, hh]
        intro h0
        have : elemOf (c :: rest) = ['.', '.'] := by
          rw [elemOf_cons_elem c rest hc]
          simpa using h0
        rw [atDotDot_of_elemOf this] at hdd
        cases hdd)
    p.length p le_rfl false 1 ['/'] hstart
  refine ⟨hlast, ?_, htail⟩
  cases b with
  | true =>
    simp only [if_true, elemOf, List.takeWhile_nil, List.append_nil] at hhead
    intro h0
    exact hhead (reverse_eq_dotdot h0)
  | false => simpa using hhead

theorem pathElems_head_of_elem (s y : List Char) (hs : ∀ c ∈ s, isPathSeparator c = false)
    (hy : atEndOrSep y = true) : (pathElems (s ++ y)).1 = s := by
  induction s with
  | nil =>
    cases y with
    | nil => rfl
    | cons c l =>
      rw [List.nil_append, pathElems_cons_sep c l hy]
  | cons c s ih =>
    have hc := hs c (List.mem_cons_self _ _)
    rw [List.cons_append, pathElems_cons_elem c _ hc,
      ih (fun d hd => hs d (List.mem_cons_of_mem _ hd))]

theorem mem_pathElems_tail (x s y : List Char) (hx : x.getLast? = some '/')
    (hs : ∀ c ∈ s, isPathSeparator c = false) (hy : atEndOrSep y = true) :
    s ∈ (pathElems (x ++ (s ++ y))).2 := by
  induction x with
  | nil => cases hx
  | cons c x ih =>
    by_cases hne : x = []
    · subst hne
      have := Option.some.inj hx
      subst this
      rw [List.cons_append, List.nil_append, pathElems_cons_sep '/' _ rfl,
        pathElems_head_of_elem s y hs hy]
      exact List.mem_cons_self _ _
    · have hx' : x.getLast? = some '/' := by rwa [getLast?_cons_of_ne_nil c hne] at hx
      have hmem := ih hx'
      rw [List.cons_append]
      by_cases hc : isPathSeparator c = true
      · rw [pathElems_cons_sep c _ hc]
        exact List.mem_cons_of_mem _ hmem
      · rw [pathElems_cons_elem c _ (by simpa using hc)]
        exact hmem

theorem noDotDot_reverse {out : List Char} (h : NoDotDot out) : ¬HasDotDotAt out.reverse := by
  rintro ⟨a, b, hab, ha, hb⟩
  have hout : out = b.reverse ++ (['.', '.'] ++ a.reverse) := by
    have := congrArg List.reverse hab
    simpa using this
  have hy : atEndOrSep a.reverse = true := by
    rcases ha with ha | ha
    · subst ha
      rfl
    · cases hr : a.reverse with
      | nil => rfl
      | cons c l =>
        have : a.getLast? = some c := by
          rw [← List.head?_reverse, hr]
          rfl
        rw [ha] at this
        have := Option.some.inj this
        subst this
        rfl
  have hs : ∀ c ∈ ['.', '.'], isPathSeparator c = false := by decide
  by_cases hbn : b = []
  · subst hbn
    rw [List.reverse_nil, List.nil_append] at hout
    rw [hout] at h
    exact h.1 (pathElems_head_of_elem _ _ hs hy)
  · have hx : b.reverse.getLast? = some '/' := by
      rw [List.getLast?_reverse]
      cases b with
      | nil => exact absurd rfl hbn
      | cons c l =>
        have : c = '/' := by simpa [atEndOrSep, isPathSeparator] using hb
        subst this
        rfl
    rw [hout] at h
    exact h.2 _ (mem_pathElems_tail _ _ _ hx hs hy) rfl

theorem atEndOrSep_dropWhile (b : List Char) :
    atEndOrSep (b.dropWhile (fun c => !isPathSeparator c)) = true := by
  induction b with
  | nil => rfl
  | cons c l ih =>
    by_cases hc : isPathSeparator c = true
    · simp only [List.dropWhile_cons, hc, Bool.not_true, Bool.false_eq_true, if_false]
      exact hc
    · simp only [List.dropWhile_cons, hc, Bool.not_false, if_true, Bool.not_eq_true']
      simpa [hc] using ih

theorem boundary_afterElem {base b : List Char} (h : Boundary base b) :
    Boundary base (afterElem b) := by
  obtain ⟨a, hab, -⟩ := h
  have hsplit : elemOf b ++ b.dropWhile (fun c => !isPathSeparator c) = b :=
    List.takeWhile_append_dropWhile _ b
  have hsep := atEndOrSep_dropWhile b
  unfold afterElem
  cases hdw : b.dropWhile (fun c => !isPathSeparator c) with
  | nil => exact ⟨base, by simp, Or.inr (Or.inr rfl)⟩
  | cons c b1 =>
    rw [hdw] at hsplit hsep
    have hc : c = '/' := by simpa [atEndOrSep, isPathSeparator] using hsep
    subst hc
    refine ⟨a ++ elemOf b ++ ['/'], ?_, Or.inr (Or.inl ?_)⟩
    · rw [hab]
      conv_lhs => rw [← hsplit]
      simp
    · simp

theorem relLoop_fst_ne_dotdot (base : List Char) (hbase : ¬HasDotDotAt base) (fuel : Nat) :
    ∀ (b t : List Char), Boundary base b → (relLoop fuel b t).1 ≠ ['.', '.'] := by
  induction fuel with
  | zero =>
    intro b t _
    rw [relLoop]
    exact List.noConfusion
  | succ n ih =>
    intro b t hb
    rw [relLoop]
    split_ifs with he hd
    · exact List.noConfusion
    · intro h0
      have h0' : elemOf b = ['.', '.'] := h0
      have hsplit : elemOf b ++ b.dropWhile (fun c => !isPathSeparator c) = b :=
        List.takeWhile_append_dropWhile _ b
      obtain ⟨a, hab, ha⟩ := hb
      have hbne : b ≠ [] := by
        intro hnil
        subst hnil
        simp at he
      apply hbase
      refine ⟨a, b.dropWhile (fun c => !isPathSeparator c), ?_, ?_, atEndOrSep_dropWhile b⟩
      · rw [hab]
        conv_lhs => rw [← hsplit, h0']
        rfl
      · rcases ha with ha | ha | ha
        · exact Or.inl ha
        · exact Or.inr ha
        · exact absurd ha hbne
    · exact ih _ _ (boundary_afterElem hb)

theorem filepathClean_abs (path : String) (h : filepathIsAbs path = true) :
    ¬HasDotDotAt (filepathClean path).data := by
  unfold filepathIsAbs at h
  unfold filepathClean
  cases hp : path.data with
  | nil =>
    rw [hp] at h
    cases h
  | cons c rest =>
    rw [hp] at h
    have hc : isPathSeparator c = true := h
    obtain ⟨hlast, hno⟩ := cleanLoop_rooted_noDotDot rest
    have hlen : ((cleanLoop true rest false 1 ['/']).length == 0) = false := by
      simpa using ne_nil_of_getLast? hlast
    simp only [hc, if_true, hlen, Bool.false_eq_true, if_false]
    exact noDotDot_reverse hno

/-- On an absolute base and an absolute target `filepath.Rel` reports no
error. -/
theorem filepathRel_ok_of_isAbs (basepath targpath : String)
    (hb : filepathIsAbs basepath = true) (ht : filepathIsAbs targpath = true) :
    ∃ rel, filepathRel basepath targpath = .ok rel := by
  have hbc := (filepathIsAbs_clean basepath).trans hb
  have htc := (filepathIsAbs_clean targpath).trans ht
  unfold filepathIsAbs at hbc htc
  have hndd := filepathClean_abs basepath hb
  have hdot : (filepathClean basepath == ".") = false := by
    rw [beq_eq_false_iff_ne]
    intro h0
    rw [h0] at hbc
    cases hbc
  have hfst := relLoop_fst_ne_dotdot (filepathClean basepath).data hndd
    ((filepathClean basepath).data.length + 1) (filepathClean basepath).data
    (filepathClean targpath).data ⟨[], rfl, Or.inl rfl⟩
  by_cases heq : (filepathClean targpath == filepathClean basepath) = true
  · exact ⟨".", by simp only [filepathRel, heq, if_true]⟩
  · have heq' : (filepathClean targpath == filepathClean basepath) = false := by
      simpa using heq
    simp only [filepathRel, heq', hdot, Bool.false_eq_true, if_false, hbc, htc,
      bne_self_eq_false]
    generalize relLoop ((filepathClean basepath).data.length + 1) (filepathClean basepath).data
      (filepathClean targpath).data = res at hfst
    obtain ⟨x, y, z⟩ := res
    have hx : (x == ['.', '.']) = false := by
      rw [beq_eq_false_iff_ne]
      exact hfst
    simp only [hx, Bool.false_eq_true, if_false]
    split_ifs
    · exact ⟨_, rfl⟩
    · exact ⟨_, rfl⟩
    · exact ⟨_, rfl⟩

/-! ## `Rel` on an absolute target outside an absolute base -/

theorem noSlashPair_cons (c : Char) {l : List Char} (h : NoSlashPair l)
    (hc : c ≠ '/' ∨ l.head? ≠ some '/') : NoSlashPair (c :: l) := by
  intro a b heq
  cases a with
  | nil =>
    have h1 : c = '/' := (List.cons.inj heq).1
    have h2 : l = '/' :: b := (List.cons.inj heq).2
    rcases hc with hc | hc
    · exact hc h1
    · apply hc
      rw [h2]
      rfl
  | cons a0 a' =>
    exact h a' b (List.cons.inj heq).2

theorem noSlashPair_suffix {l₁ l₂ : List Char} (hs : l₁ <:+ l₂) (h : NoSlashPair l₂) :
    NoSlashPair l₁ := by
  obtain ⟨t, rfl⟩ := hs
  intro a b heq
  apply h (t ++ a) b
  rw [heq, List.append_assoc]

theorem noSlashPair_reverse {l : List Char} (h : NoSlashPair l) : NoSlashPair l.reverse := by
  intro a b heq
  apply h b.reverse a.reverse
  have := congrArg List.reverse heq
  simpa using this

theorem cleanBacktrack_head (rout : List Char) (hno : NoSlashPair rout)
    (hlast : rout.getLast? = some '/') (hlen : 1 < rout.length) :
    (cleanBacktrack 1 rout).head? = some '/' → cleanBacktrack 1 rout = ['/'] := by
  induction rout with
  | nil => simp at hlen
  | cons c rest ih =>
    have hne : rest ≠ [] := by
      intro h0
      subst h0
      simp at hlen
    have hlast' : rest.getLast? = some '/' := by
      rwa [getLast?_cons_of_ne_nil c hne] at hlast
    have hno' : NoSlashPair rest := noSlashPair_suffix (List.suffix_cons c rest) hno
    rw [cleanBacktrack]
    by_cases hl : rest.length > 1
    · by_cases hc : isPathSeparator c = true
      · simp only [hc, Bool.not_true, Bool.and_false, Bool.false_eq_true, if_false]
        intro hhead
        exfalso
        have hc' : c = '/' := by simpa [isPathSeparator] using hc
        subst hc'
        cases rest with
        | nil => exact hne rfl
        | cons d l =>
          have hd : d = '/' := Option.some.inj hhead
          subst hd
          exact hno [] l rfl
      · have hc' : isPathSeparator c = false := by simpa using hc
        simp only [hl, hc', decide_True, Bool.not_false, Bool.and_self, if_true]
        exact ih hno' hlast' hl
    · simp only [hl, decide_False, Bool.false_and, Bool.false_eq_true, if_false]
      intro _
      cases rest with
      | nil => exact absurd rfl hne
      | cons a l =>
        have : l = [] := List.length_eq_zero.mp (by simp only [List.length_cons] at hl; omega)
        subst this
        have := Option.some.inj hlast'
        subst this
        rfl

/-- On a rooted path the loop of `Clean` returns a buffer with no empty
element: no two separators side by side, and no separator at the end unless
the buffer is the lone slash. -/
theorem cleanLoop_rooted_tidy (p : List Char) :
    NoSlashPair (cleanLoop true p false 1 ['/']) ∧
      ((cleanLoop true p false 1 ['/']).head? = some '/' →
        cleanLoop true p false 1 ['/'] = ['/']) := by
  have hstart : TidyInv 1 ['/'] := by
    refine ⟨rfl, rfl, ?_, fun _ => rfl⟩
    intro a b heq
    have hlen := congrArg List.length heq
    simp at hlen
    omega
  obtain ⟨-, d', -, -, hno, hhead⟩ := cleanLoop_induction true (fun _ _ d r => TidyInv d r)
    (fun _ _ _ _ h _ => h)
    (by
      rintro c rest d r ⟨h1, h2, h3, -⟩ hc
      have hc' : c ≠ '/' := by
        intro h0
        subst h0
        cases hc
      refine ⟨(getLast?_cons_of_ne_nil c (ne_nil_of_getLast? h1)).trans h1, h2,
        noSlashPair_cons c h3 (Or.inl hc'), ?_⟩
      intro h0
      exact absurd (Option.some.inj h0) hc')
    (fun _ _ _ _ h _ => h)
    (fun _ _ _ h _ => h)
    (by
      rintro rest2 d r ⟨h1, h2, h3, h4⟩ _
      subst h2
      rw [cleanDotDot_rooted]
      by_cases hl : r.length > 1
      · simp only [hl, if_true]
        obtain ⟨hs, hle⟩ := cleanBacktrack_suffix 1 r hl
        have hne : cleanBacktrack 1 r ≠ [] := by
          intro h0
          rw [h0] at hle
          simp at hle
        exact ⟨(getLast?_of_suffix hs hne).trans h1, rfl, noSlashPair_suffix hs h3,
          cleanBacktrack_head r h3 h1 hl⟩
      · simp only [hl, if_false]
        exact ⟨h1, rfl, h3, h4⟩)
    (by
      rintro c rest d r ⟨h1, h2, h3, h4⟩ hc _ _
      have hc' : c ≠ '/' := by
        intro h0
        subst h0
        cases hc
      have hne := ne_nil_of_getLast? h1
      have hslash : (cleanAddSlash true r).getLast? = some '/' ∧
          NoSlashPair (cleanAddSlash true r) ∧ cleanAddSlash true r ≠ [] := by
        unfold cleanAddSlash
        split_ifs with hcond
        · refine ⟨(getLast?_cons_of_ne_nil '/' hne).trans h1, ?_, by simp⟩
          apply noSlashPair_cons '/' h3
          right
          intro hh
          have := h4 hh
          subst this
          simp at hcond
        · exact ⟨h1, h3, hne⟩
      refine ⟨(getLast?_cons_of_ne_nil c hslash.2.2).trans hslash.1, h2,
        noSlashPair_cons c hslash.2.1 (Or.inl hc'), ?_⟩
      intro h0
      exact absurd (Option.some.inj h0) hc')
    p.length p le_rfl false 1 ['/'] hstart
  exact ⟨hno, hhead⟩

/-- A cleaned absolute path has no empty element after its root: no two
separators side by side, and no separator at its end unless it is the root
itself. -/
theorem filepathClean_abs_tidy (path : String) (h : filepathIsAbs path = true) :
    NoSlashPair (filepathClean path).data ∧
      (∀ a, (filepathClean path).data = a ++ ['/'] → a = []) := by
  unfold filepathIsAbs at h
  unfold filepathClean
  cases hp : path.data with
  | nil =>
    rw [hp] at h
    cases h
  | cons c rest =>
    rw [hp] at h
    have hc : isPathSeparator c = true := h
    obtain ⟨hlast, -⟩ := cleanLoop_rooted_noDotDot rest
    obtain ⟨hno, hhead⟩ := cleanLoop_rooted_tidy rest
    have hlen : ((cleanLoop true rest false 1 ['/']).length == 0) = false := by
      simpa using ne_nil_of_getLast? hlast
    simp only [hc, if_true, hlen, Bool.false_eq_true, if_false]
    refine ⟨noSlashPair_reverse hno, fun a ha => ?_⟩
    have hrev : cleanLoop true rest false 1 ['/'] = '/' :: a.reverse := by
      have := congrArg List.reverse ha
      simpa using this
    have := hhead (by rw [hrev]; rfl)
    rw [this] at hrev
    have : a.reverse = [] := ((List.cons.inj hrev).2).symm
    simpa using this

theorem elemOf_append_rest (b : List Char) :
    elemOf b ++ b.dropWhile (fun c => !isPathSeparator c) = b :=
  List.takeWhile_append_dropWhile _ b

theorem dropWhile_cons_sep {b rest : List Char} {c : Char}
    (h : b.dropWhile (fun c => !isPathSeparator c) = c :: rest) : c = '/' := by
  have := atEndOrSep_dropWhile b
  rw [h] at this
  simpa [atEndOrSep, isPathSeparator] using this

/-- When the loop of `Rel` leaves no base element over, the target is the
base or continues it from a separator on.  The base has no empty element
after its root. -/
theorem relLoop_base_used_up (base targ : List Char) (hno : NoSlashPair base)
    (hend : ∀ a, base = a ++ ['/'] → a = []) (hb : base ≠ []) (ht : targ ≠ [])
    (fuel : Nat) :
    ∀ (pre b t : List Char), base = pre ++ b → targ = pre ++ t →
      (pre = [] ∨ pre.getLast? = some '/') → b.length < fuel →
      (relLoop fuel b t).2.1 = [] →
      ∃ rest, targ = base ++ rest ∧ (atEndOrSep rest = true ∨ base.getLast? = some '/') := by
  induction fuel with
  | zero =>
    intro pre b t _ _ _ hlt
    omega
  | succ n ih =>
    intro pre b t hbase htarg hpre hlt hres
    rw [relLoop] at hres
    by_cases hbe : b.isEmpty = true
    · have hbnil : b = [] := by simpa using hbe
      subst hbnil
      rw [List.append_nil] at hbase
      subst hbase
      refine ⟨t, htarg, ?_⟩
      rcases hpre with hpre | hpre
      · exact absurd hpre hb
      · exact Or.inr hpre
    · have hbne : b ≠ [] := by simpa using hbe
      simp only [hbe, if_false] at hres
      by_cases hd : (elemOf t != elemOf b) = true
      · simp only [hd, if_true] at hres
        exact absurd hres hbne
      · simp only [hd, if_false] at hres
        have heq : elemOf t = elemOf b := by simpa using hd
        obtain ⟨e, hE⟩ : ∃ e, elemOf b = e := ⟨_, rfl⟩
        obtain ⟨db, hdb⟩ : ∃ db, b.dropWhile (fun c => !isPathSeparator c) = db :=
          ⟨_, rfl⟩
        obtain ⟨dt, hdt⟩ : ∃ dt, t.dropWhile (fun c => !isPathSeparator c) = dt :=
          ⟨_, rfl⟩
        have hbs : b = e ++ db := by
          rw [← hE, ← hdb]
          exact (elemOf_append_rest b).symm
        have hts : t = e ++ dt := by
          rw [← hE, ← heq, ← hdt]
          exact (elemOf_append_rest t).symm
        have hab : afterElem b = db.drop 1 := by
          unfold afterElem
          rw [hdb]
        have hat : afterElem t = dt.drop 1 := by
          unfold afterElem
          rw [hdt]
        have hsdt : atEndOrSep dt = true := by
          rw [← hdt]
          exact atEndOrSep_dropWhile t
        rw [hab, hat] at hres
        cases db with
        | nil =>
          refine ⟨dt, ?_, Or.inl hsdt⟩
          rw [htarg, hbase, hts, hbs, List.append_nil, List.append_assoc]
        | cons c b' =>
          have hc := dropWhile_cons_sep hdb
          subst hc
          have hlen : b'.length < n := by
            have := congrArg List.length hbs
            simp only [List.length_append, List.length_cons] at this
            omega
          cases dt with
          | nil =>
            exfalso
            rw [List.append_nil] at hts
            simp only [List.drop_succ_cons, List.drop_zero, List.drop_nil] at hres
            cases b' with
            | nil =>
              have h1 := hend (pre ++ e) (by rw [hbase, hbs, List.append_assoc])
              apply ht
              rw [htarg, hts]
              exact h1
            | cons x l =>
              cases n with
              | zero => simp at hlen
              | succ m =>
                rw [relLoop] at hres
                have hx : isPathSeparator x = false := by
                  by_cases hx : isPathSeparator x = true
                  · exfalso
                    have hx' : x = '/' := by simpa [isPathSeparator] using hx
                    subst hx'
                    exact hno (pre ++ e) l (by rw [hbase, hbs, List.append_assoc])
                  · simpa using hx
                have hne : (elemOf [] != elemOf (x :: l)) = true := by
                  rw [elemOf_cons_elem x l hx]
                  rfl
                simp only [List.isEmpty_cons, Bool.false_eq_true, if_false, hne, if_true] at hres
                cases hres
          | cons c' t' =>
            have hc' := dropWhile_cons_sep hdt
            subst hc'
            simp only [List.drop_succ_cons, List.drop_zero] at hres
            refine ih (pre ++ e ++ ['/']) b' t' ?_ ?_ (Or.inr (by simp)) hlen hres
            · rw [hbase, hbs]
              simp
            · rw [htarg, hts]
              simp

theorem atDotDot_upDirs (n : Nat) :
    ∀ r : List Char, atEndOrSep r = true → atDotDot (upDirs n ++ r) = true := by
  induction n with
  | zero =>
    intro r hr
    exact hr
  | succ n ih =>
    intro r _
    rw [upDirs, List.append_assoc]
    exact ih _ rfl

theorem getLast?_append_cons_of_or (r' : List Char) (x : List Char)
    (hx : x.getLast? = some '/') (h : r' = [] ∨ r'.getLast? = some '/') :
    (x ++ r').getLast? = some '/' := by
  rcases h with h | h
  · subst h
    simpa using hx
  · rw [List.getLast?_append_of_ne_nil x (ne_nil_of_getLast? h)]
    exact h

/-- The function `Clean` keeps a leading `..` element of a relative path. -/
theorem filepathClean_dotdot (l : List Char) (h : atDotDot l = true) :
    atDotDot (filepathClean (String.mk l)).data = true := by
  obtain ⟨rest2, rfl, hr⟩ := atDotDot_eq h
  have hstart : DotDotInv false 2 ['.', '.'] :=
    ⟨[], rfl, Or.inl rfl, fun h0 => (nomatch h0), le_rfl⟩
  obtain ⟨b, d', r', hout, hr', -, -⟩ := cleanLoop_induction false
    (fun _ inElem d r => DotDotInv inElem d r)
    (by
      rintro c rest d r ⟨r', h1, h2, -, h4⟩ _
      exact ⟨r', h1, h2, fun h0 => (nomatch h0), h4⟩)
    (by
      rintro c rest d r ⟨r', h1, h2, h3, h4⟩ _
      have hne := h3 rfl
      refine ⟨c :: r', by rw [h1]; rfl, Or.inr ?_, fun _ => by simp, h4⟩
      rcases h2 with h2 | h2
      · exact absurd h2 hne
      · exact (getLast?_cons_of_ne_nil c hne).trans h2)
    (by
      rintro c rest d r ⟨r', h1, h2, -, h4⟩ _
      exact ⟨r', h1, h2, fun h0 => (nomatch h0), h4⟩)
    (by
      rintro rest d r ⟨r', h1, h2, -, h4⟩ _
      exact ⟨r', h1, h2, fun h0 => (nomatch h0), h4⟩)
    (by
      rintro rest d r ⟨r', h1, h2, -, h4⟩ _
      by_cases hl : r.length > d
      · simp only [cleanDotDot, hl, if_true]
        subst h1
        obtain ⟨hs, hle⟩ := cleanBacktrack_suffix d (r' ++ ['.', '.']) hl
        have hdrop := List.suffix_iff_eq_drop.mp hs
        have hk : (r' ++ ['.', '.']).length - (cleanBacktrack d (r' ++ ['.', '.'])).length ≤
            r'.length := by
          have : (r' ++ ['.', '.']).length = r'.length + 2 := by simp
          omega
        rw [List.drop_append_of_le_length hk] at hdrop
        refine ⟨_, hdrop, ?_, fun h0 => (nomatch h0), h4⟩
        by_cases hne : List.drop
            ((r' ++ ['.', '.']).length - (cleanBacktrack d (r' ++ ['.', '.'])).length) r' = []
        · exact Or.inl hne
        · right
          rcases h2 with h2 | h2
          · subst h2
            simp at hne
          · exact (getLast?_of_suffix (List.drop_suffix _ r') hne).trans h2
      · have hpos : r.length > 0 := by rw [h1]; simp
        simp only [cleanDotDot, hl, if_false, Bool.not_false, if_true, hpos]
        refine ⟨'.' :: '.' :: '/' :: r', by rw [h1]; rfl, Or.inr ?_,
          fun h0 => (nomatch h0), by simp⟩
        exact getLast?_append_cons_of_or r' ['.', '.', '/'] rfl h2)
    (by
      rintro c rest d r ⟨r', h1, h2, -, h4⟩ _ _ _
      have hcond : ((false && r.length != 1) || (!false && r.length != 0)) = true := by
        rw [h1]
        simp
      simp only [cleanAddSlash, hcond, if_true]
      refine ⟨c :: '/' :: r', by rw [h1]; rfl, Or.inr ?_, fun _ => by simp, h4⟩
      exact getLast?_append_cons_of_or r' [c, '/'] rfl h2)
    rest2.length rest2 le_rfl false 2 ['.', '.'] hstart
  have hloop : cleanLoop false ('.' :: '.' :: rest2) false 0 [] =
      cleanLoop false rest2 false 2 ['.', '.'] := by
    rw [cleanLoop_dotdot false rest2 0 [] hr]
    rfl
  have hsep : isPathSeparator '.' = false := by decide
  unfold filepathClean
  simp only [hsep, Bool.false_eq_true, if_false, hloop, hout]
  have hlen : ((r' ++ ['.', '.']).length == 0) = false := by simp
  simp only [hlen, Bool.false_eq_true, if_false, List.reverse_append]
  show atEndOrSep r'.reverse = true
  rcases hr' with hr' | hr'
  · subst hr'
    rfl
  · cases hrev : r'.reverse with
    | nil => rfl
    | cons x y =>
      have : r'.getLast? = some x := by
        rw [← List.head?_reverse, hrev]
        rfl
      rw [hr'] at this
      have := Option.some.inj this
      subst this
      rfl

theorem liesUnder_of_append (basepath path : String) (rest : List Char)
    (h : (filepathClean path).data = (filepathClean basepath).data ++ rest)
    (hr : atEndOrSep rest = true ∨ (filepathClean basepath).data.getLast? = some '/') :
    liesUnder basepath path = true := by
  unfold liesUnder
  rw [h, List.drop_left]
  have hp : (filepathClean basepath).data.isPrefixOf ((filepathClean basepath).data ++ rest) =
      true := by
    rw [List.isPrefixOf_iff_prefix]
    exact List.prefix_append _ _
  rw [hp, Bool.true_and]
  rcases hr with hr | hr
  · rw [hr, Bool.true_or]
  · rw [hr]
    simp

/-- On an absolute base and an absolute target that does not lie under the
base, `filepath.Rel` reports no error and the path it computes begins with
the element `..`. -/
theorem filepathRel_outside (basepath targpath : String)
    (hb : filepathIsAbs basepath = true) (ht : filepathIsAbs targpath = true)
    (hu : liesUnder basepath targpath = false) :
    ∃ rel, filepathRel basepath targpath = .ok rel ∧ atDotDot rel.data = true := by
  have hbc := (filepathIsAbs_clean basepath).trans hb
  have htc := (filepathIsAbs_clean targpath).trans ht
  unfold filepathIsAbs at hbc htc
  have hndd := filepathClean_abs basepath hb
  obtain ⟨hno, hend⟩ := filepathClean_abs_tidy basepath hb
  have hbne : (filepathClean basepath).data ≠ [] := by
    intro h0
    rw [h0] at hbc
    cases hbc
  have htne : (filepathClean targpath).data ≠ [] := by
    intro h0
    rw [h0] at htc
    cases htc
  have hdot : (filepathClean basepath == ".") = false := by
    rw [beq_eq_false_iff_ne]
    intro h0
    rw [h0] at hbc
    cases hbc
  have heq : (filepathClean targpath == filepathClean basepath) = false := by
    rw [beq_eq_false_iff_ne]
    intro h0
    have := liesUnder_of_append basepath targpath [] (by rw [h0, List.append_nil]) (Or.inl rfl)
    rw [hu] at this
    cases this
  have hfst := relLoop_fst_ne_dotdot (filepathClean basepath).data hndd
    ((filepathClean basepath).data.length + 1) (filepathClean basepath).data
    (filepathClean targpath).data ⟨[], rfl, Or.inl rfl⟩
  have hsnd : (relLoop ((filepathClean basepath).data.length + 1) (filepathClean basepath).data
      (filepathClean targpath).data).2.1 ≠ [] := by
    intro h0
    obtain ⟨rest, hrest, hr⟩ := relLoop_base_used_up (filepathClean basepath).data
      (filepathClean targpath).data hno hend hbne htne _ [] _ _ rfl rfl (Or.inl rfl)
      (Nat.lt_succ_self _) h0
    have := liesUnder_of_append basepath targpath rest hrest hr
    rw [hu] at this
    cases this
  simp only [filepathRel, heq, hdot, Bool.false_eq_true, if_false, hbc, htc, bne_self_eq_false]
  generalize relLoop ((filepathClean basepath).data.length + 1) (filepathClean basepath).data
    (filepathClean targpath).data = res at hfst hsnd
  obtain ⟨x, y, z⟩ := res
  have hx : (x == ['.', '.']) = false := by
    rw [beq_eq_false_iff_ne]
    exact hfst
  have hy : (!y.isEmpty) = true := by
    simpa using hsnd
  simp only [hx, Bool.false_eq_true, if_false, hy, if_true]
  refine ⟨_, rfl, filepathClean_dotdot _ (atDotDot_upDirs _ _ ?_)⟩
  split_ifs
  · rfl
  · rfl

/-- A text that begins with the element `..` is not the placeholder. -/
theorem ne_placeholder_of_atDotDot (rel : String) (h : atDotDot rel.data = true) :
    rel ≠ "..." := by
  intro h0
  subst h0
  exact absurd h (by decide)

/-! ## The categories as functions of the buffered events -/

theorem processEvent_isDir (config : Config) (s : Embeds) (event : Event)
    (h : event.isDir = true) : processEvent config s event = s := by
  simp [processEvent, h]

theorem foldl_newFiles (config : Config) (events : List Event) (s : Embeds) :
    (events.foldl (processEvent config) s).newFilesEmbed =
      { s.newFilesEmbed with
        fields := s.newFilesEmbed.fields ++
          (events.filter (fun e => !e.isDir && e.op == Op.Create)).map
            (fun e => DiscordField.mk e.name (createValue config e)) } := by
  induction events generalizing s with
  | nil => simp
  | cons e es ih =>
    rw [List.foldl_cons, ih]
    cases hd : e.isDir <;> cases ho : e.op <;>
      simp [processEvent, appendField, hd, ho, List.filter_cons]

theorem foldl_deletedFiles (config : Config) (events : List Event) (s : Embeds) :
    (events.foldl (processEvent config) s).deletedFilesEmbed =
      { s.deletedFilesEmbed with
        fields := s.deletedFilesEmbed.fields ++
          (events.filter (fun e => !e.isDir && e.op == Op.Remove)).map
            (fun e => DiscordField.mk e.name ("`" ++ getRelPath config e.path ++ "`")) } := by
  induction events generalizing s with
  | nil => simp
  | cons e es ih =>
    rw [List.foldl_cons, ih]
    cases hd : e.isDir <;> cases ho : e.op <;>
      simp [processEvent, appendField, hd, ho, List.filter_cons]

theorem foldl_changes (config : Config) (events : List Event) (s : Embeds) :
    (events.foldl (processEvent config) s).changeFileSet =
      { s.changeFileSet with
        fields := s.changeFileSet.fields ++
          (events.filter (fun e => !e.isDir && (e.op == Op.Move || e.op == Op.Rename))).map
            (fun e => DiscordField.mk e.name
              (if e.op = Op.Move then
                "Move from `" ++ getRelPath config e.oldPath ++ "` to `" ++
                  getRelPath config e.path ++ "`"
              else "Rename to `" ++ filepathBase e.path)) } := by
  induction events generalizing s with
  | nil => simp
  | cons e es ih =>
    rw [List.foldl_cons, ih]
    cases hd : e.isDir <;> cases ho : e.op <;>
      simp [processEvent, appendField, hd, ho, List.filter_cons]

theorem classify_newFiles (config : Config) (events : List Event) :
    (classify config events).newFilesEmbed =
      { title := "New files", description := "", color := 2667354,
        fields := (events.filter (fun e => !e.isDir && e.op == Op.Create)).map
          (fun e => DiscordField.mk e.name (createValue config e)) } := by
  simp [classify, foldl_newFiles, initEmbeds]

theorem classify_deletedFiles (config : Config) (events : List Event) :
    (classify config events).deletedFilesEmbed =
      { title := "Deleted files", description := "", color := 14701138,
        fields := (events.filter (fun e => !e.isDir && e.op == Op.Remove)).map
          (fun e => DiscordField.mk e.name ("`" ++ getRelPath config e.path ++ "`")) } := by
  simp [classify, foldl_deletedFiles, initEmbeds]

theorem classify_changes (config : Config) (events : List Event) :
    (classify config events).changeFileSet =
      { title := "Changes", description := "", color := 8750469,
        fields :=
          (events.filter (fun e => !e.isDir && (e.op == Op.Move || e.op == Op.Rename))).map
            (fun e => DiscordField.mk e.name
              (if e.op = Op.Move then
                "Move from `" ++ getRelPath config e.oldPath ++ "` to `" ++
                  getRelPath config e.path ++ "`"
              else "Rename to `" ++ filepathBase e.path)) } := by
  simp [classify, foldl_changes, initEmbeds]

theorem buildMsg_embeds (s : Embeds) :
    (buildMsg s).embeds =
      [s.newFilesEmbed, s.deletedFilesEmbed, s.changeFileSet].filter
        (fun e => decide (0 < e.fields.length)) := by
  by_cases h1 : 0 < s.newFilesEmbed.fields.length <;>
    by_cases h2 : 0 < s.deletedFilesEmbed.fields.length <;>
    by_cases h3 : 0 < s.changeFileSet.fields.length <;>
    simp [buildMsg, h1, h2, h3, List.filter_cons]

theorem dispatchCycle_nonempty (config : Config) (w : World) (h : 0 < w.events.length) :
    dispatchCycle config w =
      { events := [], posted := w.posted ++ [buildMsg (classify config w.events)] } := by
  simp [dispatchCycle, h]

theorem dispatchCycle_empty (config : Config) (w : World) (h : w.events = []) :
    dispatchCycle config w = w := by
  simp [dispatchCycle, h]

/-! ## The claims -/

/-- C1: a cycle over a non-empty buffer posts one message whose embeds are the
three category embeds, in the order New files, Deleted files, Changes, with
exactly those left out that received no field. -/
theorem dispatch_embeds_fixed_order (config : Config) (w : World)
    (h : 0 < w.events.length) :
    ∃ msg : DiscordData,
      (dispatchCycle config w).posted = w.posted ++ [msg] ∧
      msg.embeds =
        [(classify config w.events).newFilesEmbed, (classify config w.events).deletedFilesEmbed,
          (classify config w.events).changeFileSet].filter
          (fun e => decide (0 < e.fields.length)) ∧
      (classify config w.events).newFilesEmbed.title = "New files" ∧
      (classify config w.events).deletedFilesEmbed.title = "Deleted files" ∧
      (classify config w.events).changeFileSet.title = "Changes" ∧
      List.Sublist (msg.embeds.map (fun e => e.title)) ["New files", "Deleted files", "Changes"] ∧
      (∀ e ∈ msg.embeds, 0 < e.fields.length) := by
  refine ⟨buildMsg (classify config w.events), ?_, buildMsg_embeds _, ?_, ?_, ?_, ?_, ?_⟩
  · rw [dispatchCycle_nonempty config w h]
  · rw [classify_newFiles]
  · rw [classify_deletedFiles]
  · rw [classify_changes]
  · rw [buildMsg_embeds]
    have hsub := (List.filter_sublist (p := fun e : DiscordEmbed => decide (0 < e.fields.length))
      [(classify config w.events).newFilesEmbed, (classify config w.events).deletedFilesEmbed,
          (classify config w.events).changeFileSet]).map (fun e => e.title)
    simpa [classify_newFiles, classify_deletedFiles, classify_changes] using hsub
  · intro e he
    rw [buildMsg_embeds] at he
    simpa using (List.mem_filter.mp he).2

/-- A witness of C1: a `Remove`, a directory event and a `Create`, in that
order; New files comes first, Deleted files second, Changes is left out. -/
theorem dispatch_embeds_fixed_order_witness :
    0 < (World.mk [Event.mk Op.Remove "/data/b.txt" "" "b.txt" false,
        Event.mk Op.Move "/data/d2" "/data/d1" "d2" true,
        Event.mk Op.Create "/data/a.txt" "" "a.txt" false] []).events.length ∧
      ∃ msg : DiscordData,
        (dispatchCycle (Config.mk 1000 "http://hook" "/data" "")
          (World.mk [Event.mk Op.Remove "/data/b.txt" "" "b.txt" false,
            Event.mk Op.Move "/data/d2" "/data/d1" "d2" true,
            Event.mk Op.Create "/data/a.txt" "" "a.txt" false] [])).posted = [] ++ [msg] ∧
        List.Sublist (msg.embeds.map (fun e => e.title))
          ["New files", "Deleted files", "Changes"] ∧
        (dispatchCycle (Config.mk 1000 "http://hook" "/data" "")
          (World.mk [Event.mk Op.Remove "/data/b.txt" "" "b.txt" false,
            Event.mk Op.Move "/data/d2" "/data/d1" "d2" true,
            Event.mk Op.Create "/data/a.txt" "" "a.txt" false] [])).posted =
          [DiscordData.mk ""
            [DiscordEmbed.mk "New files" "" 2667354 [DiscordField.mk "a.txt" "`a.txt`\n"],
              DiscordEmbed.mk "Deleted files" "" 14701138 [DiscordField.mk "b.txt" "`b.txt`"]]] :=
  ⟨by decide,
    (dispatch_embeds_fixed_order (Config.mk 1000 "http://hook" "/data" "")
      (World.mk [Event.mk Op.Remove "/data/b.txt" "" "b.txt" false,
        Event.mk Op.Move "/data/d2" "/data/d1" "d2" true,
        Event.mk Op.Create "/data/a.txt" "" "a.txt" false] []) (by decide)).elim
      (fun msg h => ⟨msg, h.1, h.2.2.2.2.2.1, by decide⟩)⟩

theorem buildMsg_embeds_ne_nil (s : Embeds) :
    (buildMsg s).embeds ≠ [] ↔
      s.newFilesEmbed.fields ≠ [] ∨ s.deletedFilesEmbed.fields ≠ [] ∨
        s.changeFileSet.fields ≠ [] := by
  rw [buildMsg_embeds]
  cases h1 : s.newFilesEmbed.fields <;> cases h2 : s.deletedFilesEmbed.fields <;>
    cases h3 : s.changeFileSet.fields <;> simp [List.filter_cons, h1, h2, h3]

/-- C2 (as stated, refuted): a buffer holding one directory event holds no
qualifying event, and the cycle still calls `postWebhook`, with a message
that has no embed. -/
theorem dispatch_posts_without_qualifying_event :
    (List.all [Event.mk Op.Create "/data/dir" "" "dir" true] (fun e => !qualifies e)) = true ∧
      (dispatchCycle (Config.mk 1000 "http://hook" "/data" "")
        (World.mk [Event.mk Op.Create "/data/dir" "" "dir" true] [])).posted =
        [DiscordData.mk "" []] := by
  decide

/-- C2 (amended): the gate of a cycle is the length of the buffer.  With an
empty buffer the cycle calls `postWebhook` not at all and changes nothing;
with a non-empty buffer it calls it exactly once, and the posted message has
at least one embed exactly when some buffered event qualifies. -/
theorem dispatch_posts_iff_buffer_nonempty (config : Config) (w : World) :
    (w.events = [] → dispatchCycle config w = w) ∧
      (w.events ≠ [] →
        ∃ msg : DiscordData,
          (dispatchCycle config w).posted = w.posted ++ [msg] ∧
          (msg.embeds ≠ [] ↔ ∃ e ∈ w.events, qualifies e = true)) := by
  refine ⟨dispatchCycle_empty config w, fun hne => ?_⟩
  have hlen : 0 < w.events.length := List.length_pos.mpr hne
  refine ⟨buildMsg (classify config w.events), ?_, ?_⟩
  · rw [dispatchCycle_nonempty config w hlen]
  · rw [buildMsg_embeds_ne_nil, classify_newFiles, classify_deletedFiles, classify_changes]
    simp only [ne_eq, List.map_eq_nil_iff, List.filter_eq_nil_iff, not_forall]
    constructor
    · rintro (⟨e, he, hq⟩ | ⟨e, he, hq⟩ | ⟨e, he, hq⟩) <;>
        refine ⟨e, he, ?_⟩ <;>
        cases hd : e.isDir <;> cases ho : e.op <;> simp_all [qualifies]
    · rintro ⟨e, he, hq⟩
      cases hd : e.isDir <;> cases ho : e.op <;> simp [qualifies, hd, ho] at hq
      · exact Or.inl ⟨e, he, by simp [hd, ho]⟩
      · exact Or.inr (Or.inl ⟨e, he, by simp [hd, ho]⟩)
      · exact Or.inr (Or.inr ⟨e, he, by simp [hd, ho]⟩)
      · exact Or.inr (Or.inr ⟨e, he, by simp [hd, ho]⟩)

/-- A witness of the amended C2 at a buffer holding one directory event. -/
theorem dispatch_posts_iff_buffer_nonempty_witness :
    [Event.mk Op.Create "/data/dir" "" "dir" true] ≠ [] ∧
      ∃ msg : DiscordData,
        (dispatchCycle (Config.mk 1000 "http://hook" "/data" "")
          (World.mk [Event.mk Op.Create "/data/dir" "" "dir" true] [])).posted = [] ++ [msg] ∧
        (msg.embeds ≠ [] ↔
          ∃ e ∈ [Event.mk Op.Create "/data/dir" "" "dir" true], qualifies e = true) :=
  ⟨by decide,
    (dispatch_posts_iff_buffer_nonempty (Config.mk 1000 "http://hook" "/data" "")
      (World.mk [Event.mk Op.Create "/data/dir" "" "dir" true] [])).2 (by decide)⟩

theorem foldl_processEvent_filter (config : Config) (events : List Event) (s : Embeds) :
    events.foldl (processEvent config) s =
      (events.filter (fun e => !e.isDir)).foldl (processEvent config) s := by
  induction events generalizing s with
  | nil => rfl
  | cons e es ih =>
    cases hd : e.isDir
    · simp [List.filter_cons, hd, ih (processEvent config s e)]
    · simp [List.filter_cons, hd, processEvent_isDir config s e hd, ih s]

/-- C3: directory events add no field to any category.  The three embeds
built from a buffer are those built from the buffer without its directory
events, whatever the operations of those events; and a buffer made only of
directory events leaves the three embeds as they were created, with no
field. -/
theorem directory_events_ignored (config : Config) (events : List Event) :
    classify config events = classify config (events.filter (fun e => !e.isDir)) ∧
      ((∀ e ∈ events, e.isDir = true) →
        classify config events = initEmbeds ∧
        (classify config events).newFilesEmbed.fields = [] ∧
        (classify config events).deletedFilesEmbed.fields = [] ∧
        (classify config events).changeFileSet.fields = []) := by
  refine ⟨foldl_processEvent_filter config events initEmbeds, fun hall => ?_⟩
  have hnil : events.filter (fun e => !e.isDir) = [] := by
    rw [List.filter_eq_nil_iff]
    intro e he
    simp [hall e he]
  have hinit : classify config events = initEmbeds := by
    unfold classify
    rw [foldl_processEvent_filter, hnil, List.foldl_nil]
  rw [hinit]
  exact ⟨rfl, rfl, rfl, rfl⟩

/-- A witness of C3 at a buffer of two directory events of different
operations. -/
theorem directory_events_ignored_witness :
    (∀ e ∈ [Event.mk Op.Create "/data/d1" "" "d1" true,
        Event.mk Op.Move "/data/d3" "/data/d2" "d3" true], e.isDir = true) ∧
      classify (Config.mk 1000 "http://hook" "/data" "")
        [Event.mk Op.Create "/data/d1" "" "d1" true,
          Event.mk Op.Move "/data/d3" "/data/d2" "d3" true] = initEmbeds :=
  ⟨by decide,
    ((directory_events_ignored (Config.mk 1000 "http://hook" "/data" "")
      [Event.mk Op.Create "/data/d1" "" "d1" true,
        Event.mk Op.Move "/data/d3" "/data/d2" "d3" true]).2 (by decide)).1⟩

theorem createValue_no_link (config : Config) (event : Event) (h : config.webLink = "") :
    createValue config event = "`" ++ getRelPath config event.path ++ "`\n" := by
  simp [createValue, h]

theorem createValue_link (config : Config) (event : Event) (h : config.webLink ≠ "") :
    createValue config event =
      "`" ++ getRelPath config event.path ++ "`\n[web link](" ++ config.webLink ++
        queryEscape event.path ++ ")" := by
  have hlit : "`\n" ++ "[web link](" = "`\n[web link](" := by decide
  simp only [createValue, bne_iff_ne, ne_eq, h, not_false_eq_true, if_true]
  rw [← hlit]
  simp only [String.append_assoc]

/-- C5: with no web link configured, a buffer of non-directory `Create`
events gives New files one field per event, in the order of the buffer, whose
name is the name of the event and whose value is the relative path between
backticks followed by one newline, with no link. -/
theorem create_fields_no_link (config : Config) (events : List Event)
    (hlink : config.webLink = "")
    (hall : ∀ e ∈ events, e.isDir = false ∧ e.op = Op.Create) :
    (classify config events).newFilesEmbed.fields =
      events.map (fun e => DiscordField.mk e.name ("`" ++ getRelPath config e.path ++ "`\n")) := by
  rw [classify_newFiles]
  have hfilter : events.filter (fun e => !e.isDir && e.op == Op.Create) = events := by
    rw [List.filter_eq_self]
    intro e he
    simp [(hall e he).1, (hall e he).2]
  simp only [hfilter]
  apply List.map_congr_left
  intro e _
  rw [createValue_no_link config e hlink]

/-- A witness of C5: base directory `/data`, one `Create` of `/data/a.txt`. -/
theorem create_fields_no_link_witness :
    (Config.mk 1000 "http://hook" "/data" "").webLink = "" ∧
      (∀ e ∈ [Event.mk Op.Create "/data/a.txt" "" "a.txt" false],
        e.isDir = false ∧ e.op = Op.Create) ∧
      (classify (Config.mk 1000 "http://hook" "/data" "")
        [Event.mk Op.Create "/data/a.txt" "" "a.txt" false]).newFilesEmbed.fields =
        [DiscordField.mk "a.txt" "`a.txt`\n"] :=
  ⟨rfl, by decide,
    (create_fields_no_link (Config.mk 1000 "http://hook" "/data" "")
      [Event.mk Op.Create "/data/a.txt" "" "a.txt" false] rfl (by decide)).trans (by decide)⟩

/-- C6: with a non-empty web-link prefix, a non-directory `Create` event
appends to New files the field whose value is the relative path between
backticks, a newline, and the link `[web link](L)` where `L` is the prefix
followed at once by the query-escaped absolute path of the event. -/
theorem create_field_with_link (config : Config) (s : Embeds) (event : Event)
    (hdir : event.isDir = false) (hop : event.op = Op.Create) (hlink : config.webLink ≠ "") :
    processEvent config s event =
      { s with
        newFilesEmbed :=
          { s.newFilesEmbed with
            fields := s.newFilesEmbed.fields ++
              [DiscordField.mk event.name
                ("`" ++ getRelPath config event.path ++ "`\n[web link](" ++ config.webLink ++
                  queryEscape event.path ++ ")")] } } := by
  simp [processEvent, hdir, hop, appendField, createValue_link config event hlink]

/-- A witness of C6: prefix `https://files.example/?p=`, base directory
`/data`, a `Create` of `/data/a b.txt`. -/
theorem create_field_with_link_witness :
    (Event.mk Op.Create "/data/a b.txt" "" "a b.txt" false).isDir = false ∧
      (Event.mk Op.Create "/data/a b.txt" "" "a b.txt" false).op = Op.Create ∧
      (Config.mk 1000 "http://hook" "/data" "https://files.example/?p=").webLink ≠ "" ∧
      (processEvent (Config.mk 1000 "http://hook" "/data" "https://files.example/?p=") initEmbeds
        (Event.mk Op.Create "/data/a b.txt" "" "a b.txt" false)).newFilesEmbed.fields =
        [DiscordField.mk "a b.txt"
          "`a b.txt`\n[web link](https://files.example/?p=%2Fdata%2Fa+b.txt)"] :=
  ⟨rfl, rfl, by decide,
    (congrArg (fun s : Embeds => s.newFilesEmbed.fields)
      (create_field_with_link (Config.mk 1000 "http://hook" "/data" "https://files.example/?p=")
        initEmbeds (Event.mk Op.Create "/data/a b.txt" "" "a b.txt" false) rfl rfl
        (by decide))).trans (by decide)⟩

/-- C4 (as stated, refuted): with base directory `/data`, the absolute path
`/other/x.txt` does not lie under the base, and `getRelPath` returns the
relative path `../other/x.txt`, which is not the placeholder. -/
theorem getRelPath_outside_base_not_placeholder :
    filepathIsAbs "/other/x.txt" = true ∧ liesUnder "/data" "/other/x.txt" = false ∧
      getRelPath (Config.mk 1000 "http://hook" "/data" "") "/other/x.txt" = "../other/x.txt" ∧
      getRelPath (Config.mk 1000 "http://hook" "/data" "") "/other/x.txt" ≠ "..." := by
  decide

/-- C4 (amended): `getRelPath` never fails and the cycle goes on whatever the
paths are.  It returns the placeholder `...` when `filepath.Rel` reports an
error, as `Rel` does whenever exactly one of the base directory and the path
is absolute, and the path that `Rel` computes otherwise.  When the base
directory and the path are both absolute, `Rel` reports no error; when
moreover the path does not lie under the base, the path that `Rel` computes
begins with the element `..`, so it is not the placeholder: base `/data` and
path `/other/x.txt` give `../other/x.txt`.  The cycle goes on: a `Remove`
event of the path adds its field with what `getRelPath` returns, and a
non-empty buffer is posted and emptied. -/
theorem getRelPath_placeholder_on_error (config : Config) (path : String) :
    (∀ msg, filepathRel config.basePath path = .error msg → getRelPath config path = "...") ∧
      (∀ rel, filepathRel config.basePath path = .ok rel → getRelPath config path = rel) ∧
      (filepathIsAbs config.basePath ≠ filepathIsAbs path → getRelPath config path = "...") ∧
      (filepathIsAbs config.basePath = true → filepathIsAbs path = true →
        ∃ rel, filepathRel config.basePath path = .ok rel ∧ getRelPath config path = rel) ∧
      (filepathIsAbs config.basePath = true → filepathIsAbs path = true →
        liesUnder config.basePath path = false →
        atDotDot (getRelPath config path).data = true ∧ getRelPath config path ≠ "...") ∧
      getRelPath (Config.mk 1000 "http://hook" "/data" "") "/other/x.txt" = "../other/x.txt" ∧
      (∀ (s : Embeds) (event : Event), event.isDir = false → event.op = Op.Remove →
        event.path = path →
        (processEvent config s event).deletedFilesEmbed.fields =
          s.deletedFilesEmbed.fields ++
            [DiscordField.mk event.name ("`" ++ getRelPath config path ++ "`")]) ∧
      (∀ w : World, w.events ≠ [] →
        ∃ msg, dispatchCycle config w = World.mk [] (w.posted ++ [msg])) := by
  refine ⟨fun msg h => ?_, fun rel h => ?_, fun h => ?_, fun hb hp => ?_, fun hb hp hu => ?_,
    by decide, fun s event hdir hop hpath => ?_, fun w hw => ?_⟩
  · simp [getRelPath, h]
  · simp [getRelPath, h]
  · simp [getRelPath, filepathRel_error_of_isAbs_ne config.basePath path h]
  · obtain ⟨rel, hrel⟩ := filepathRel_ok_of_isAbs config.basePath path hb hp
    exact ⟨rel, hrel, by simp [getRelPath, hrel]⟩
  · obtain ⟨rel, hrel, hdd⟩ := filepathRel_outside config.basePath path hb hp hu
    have hget : getRelPath config path = rel := by simp [getRelPath, hrel]
    rw [hget]
    exact ⟨hdd, ne_placeholder_of_atDotDot rel hdd⟩
  · subst hpath
    simp [processEvent, hdir, hop, appendField]
  · exact ⟨_, dispatchCycle_nonempty config w (List.length_pos.mpr hw)⟩

/-- A witness of the amended C4.  Base directory `/data` and the relative
path `x.txt` give the placeholder, and the cycle posts the `Remove` event of
that path with the placeholder as its value.  Base directory `/data` and the
absolute path `/other/x.txt`, which is not under the base, give a path that
begins with the element `..`. -/
theorem getRelPath_placeholder_on_error_witness :
    filepathIsAbs (Config.mk 1000 "http://hook" "/data" "").basePath ≠ filepathIsAbs "x.txt" ∧
      getRelPath (Config.mk 1000 "http://hook" "/data" "") "x.txt" = "..." ∧
      (dispatchCycle (Config.mk 1000 "http://hook" "/data" "")
        (World.mk [Event.mk Op.Remove "x.txt" "" "x.txt" false] [])).posted =
        [DiscordData.mk ""
          [DiscordEmbed.mk "Deleted files" "" 14701138 [DiscordField.mk "x.txt" "`...`"]]] ∧
      filepathIsAbs (Config.mk 1000 "http://hook" "/data" "").basePath = true ∧
      filepathIsAbs "/other/x.txt" = true ∧
      liesUnder (Config.mk 1000 "http://hook" "/data" "").basePath "/other/x.txt" = false ∧
      atDotDot (getRelPath (Config.mk 1000 "http://hook" "/data" "") "/other/x.txt").data =
        true ∧
      getRelPath (Config.mk 1000 "http://hook" "/data" "") "/other/x.txt" ≠ "..." :=
  ⟨by decide,
    (getRelPath_placeholder_on_error (Config.mk 1000 "http://hook" "/data" "") "x.txt").2.2.1
      (by decide),
    by decide, by decide, by decide, by decide,
    (getRelPath_placeholder_on_error (Config.mk 1000 "http://hook" "/data" "")
      "/other/x.txt").2.2.2.2.1 (by decide) (by decide) (by decide)⟩

/-- C7: for every buffer, the fields of Deleted files are those of the
non-directory `Remove` events, one each, in the order of the buffer, with the
name of the event and the relative path between backticks, nothing after the
closing backtick.  With base directory `/data`, a buffer holding the one
event `Remove /data/b.txt` is posted as a message whose only embed is
Deleted files with the field `b.txt`. -/
theorem deleted_fields (config : Config) (events : List Event) :
    (classify config events).deletedFilesEmbed.fields =
        (events.filter (fun e => !e.isDir && e.op == Op.Remove)).map
          (fun e => DiscordField.mk e.name ("`" ++ getRelPath config e.path ++ "`")) ∧
      (dispatchCycle (Config.mk 1000 "http://hook" "/data" "")
        (World.mk [Event.mk Op.Remove "/data/b.txt" "" "b.txt" false] [])).posted =
        [DiscordData.mk ""
          [DiscordEmbed.mk "Deleted files" "" 14701138 [DiscordField.mk "b.txt" "`b.txt`"]]] := by
  refine ⟨?_, by decide⟩
  rw [classify_deletedFiles]

/-- C8: for every buffer, the fields of Changes are those of the
non-directory `Move` and `Rename` events, one each, interleaved in the order
of the buffer; the field of a `Move` event has the name of the event and the
value `Move from`, the relative old path between backticks, `to`, the
relative new path between backticks.  With base directory `/data`, the move
of `/data/c.txt` to `/data/d.txt` gives the value shown. -/
theorem changes_fields (config : Config) (events : List Event) :
    (classify config events).changeFileSet.fields =
        (events.filter (fun e => !e.isDir && (e.op == Op.Move || e.op == Op.Rename))).map
          (fun e => DiscordField.mk e.name
            (if e.op = Op.Move then
              "Move from `" ++ getRelPath config e.oldPath ++ "` to `" ++
                getRelPath config e.path ++ "`"
            else "Rename to `" ++ filepathBase e.path)) ∧
      (classify (Config.mk 1000 "http://hook" "/data" "")
        [Event.mk Op.Move "/data/d.txt" "/data/c.txt" "d.txt" false]).changeFileSet.fields =
        [DiscordField.mk "d.txt" "Move from `c.txt` to `d.txt`"] := by
  refine ⟨?_, by decide⟩
  rw [classify_changes]

/-- C9: a non-directory `Rename` event appends to Changes the field whose
name is the name of the event and whose value is `Rename to`, a backtick and
the base name of the new path.  Nothing follows the base name: the value is
not the same text with a closing backtick added. -/
theorem rename_field (config : Config) (s : Embeds) (event : Event)
    (hdir : event.isDir = false) (hop : event.op = Op.Rename) :
    processEvent config s event =
        { s with
          changeFileSet :=
            { s.changeFileSet with
              fields := s.changeFileSet.fields ++
                [DiscordField.mk event.name ("Rename to `" ++ filepathBase event.path)] } } ∧
      "Rename to `" ++ filepathBase event.path ≠
        "Rename to `" ++ filepathBase event.path ++ "`" := by
  refine ⟨by simp [processEvent, hdir, hop, appendField], fun h => ?_⟩
  have hlen := congrArg String.length h
  have hone : "`".length = 1 := by decide
  simp [String.length_append, hone] at hlen

/-- A witness of C9: base directory `/data`, a rename to `/data/sub/e.txt`.
The value holds the base name `e.txt`, where the relative path is
`sub/e.txt`. -/
theorem rename_field_witness :
    (Event.mk Op.Rename "/data/sub/e.txt" "/data/sub/f.txt" "e.txt" false).isDir = false ∧
      (Event.mk Op.Rename "/data/sub/e.txt" "/data/sub/f.txt" "e.txt" false).op = Op.Rename ∧
      (processEvent (Config.mk 1000 "http://hook" "/data" "") initEmbeds
        (Event.mk Op.Rename "/data/sub/e.txt" "/data/sub/f.txt" "e.txt"
          false)).changeFileSet.fields = [DiscordField.mk "e.txt" "Rename to `e.txt"] ∧
      getRelPath (Config.mk 1000 "http://hook" "/data" "") "/data/sub/e.txt" = "sub/e.txt" :=
  ⟨rfl, rfl,
    (congrArg (fun s : Embeds => s.changeFileSet.fields)
      (rename_field (Config.mk 1000 "http://hook" "/data" "") initEmbeds
        (Event.mk Op.Rename "/data/sub/e.txt" "/data/sub/f.txt" "e.txt" false) rfl rfl).1).trans
      (by decide),
    by decide⟩

/-- C10: after a cycle the buffer is empty, whatever it held; a second cycle
right after the first changes nothing, so it posts nothing; and a cycle on an
empty buffer changes nothing, the first time and the second. -/
theorem dispatch_idempotent (config : Config) (w : World) :
    (dispatchCycle config w).events = [] ∧
      dispatchCycle config (dispatchCycle config w) = dispatchCycle config w ∧
      (dispatchCycle config (dispatchCycle config w)).posted = (dispatchCycle config w).posted ∧
      (w.events = [] →
        dispatchCycle config w = w ∧ dispatchCycle config (dispatchCycle config w) = w) := by
  have hempty : (dispatchCycle config w).events = [] := by
    by_cases h : 0 < w.events.length
    · rw [dispatchCycle_nonempty config w h]
    · have hnil : w.events = [] := List.length_eq_zero.mp (by omega)
      rw [dispatchCycle_empty config w hnil, hnil]
  have hsecond := dispatchCycle_empty config (dispatchCycle config w) hempty
  refine ⟨hempty, hsecond, by rw [hsecond], fun hnil => ?_⟩
  have hfirst := dispatchCycle_empty config w hnil
  exact ⟨hfirst, by rw [hfirst, hfirst]⟩

/-- A witness of C10 at the empty buffer with no message posted so far. -/
theorem dispatch_idempotent_witness :
    (World.mk [] []).events = [] ∧
      dispatchCycle (Config.mk 1000 "http://hook" "/data" "") (World.mk [] []) = World.mk [] [] ∧
      dispatchCycle (Config.mk 1000 "http://hook" "/data" "")
        (dispatchCycle (Config.mk 1000 "http://hook" "/data" "") (World.mk [] [])) =
        World.mk [] [] :=
  ⟨rfl,
    (dispatch_idempotent (Config.mk 1000 "http://hook" "/data" "") (World.mk [] [])).2.2.2
      rfl⟩

end DiscordFeedBot
